import Mathlib

/-!
# Verification of the multi-database patent search coordinator

Shallow embedding of `multi_db_coordinator.py` (class `MultiDBCoordinator`).

Modelling conventions:
* Python values flowing through the coordinator (patent records, per-backend
  result dictionaries, the final summary dictionary) are modelled by the
  inductive type `Value` below (strings, ints, floats-as-rationals, lists,
  dicts as association lists in insertion order, and `None`).
* Python exceptions are modelled with `Except String`: an operation that can
  raise returns `Except String _`, and a `try/except` block becomes a `match`
  on that result.
* Python `float` arithmetic is modelled over `ℚ`; the only float computed by
  the coordinator is the deduplication ratio `(o - m) / o` with natural
  numbers `m ≤ o`, whose compared values (`0` and the bounds `0`, `1`) are
  exact in IEEE arithmetic as well.
* The MD5 digest and Python's builtin `hash` are modelled as collision-free:
  the type `Digest` keeps the digested payload in a constructor
  (`Digest.md5` for `hashlib.md5(x).hexdigest()`, `Digest.pyhash` for the
  fallback `str(hash(str(patent)))`), so digest equality coincides with
  payload equality.  Every refutation below exhibits equal or distinct
  digest *inputs*, so it is insensitive to this idealisation.
* Thread scheduling is not modelled: `_search_parallel` collects its result
  map in submission order rather than `as_completed` order; the map's
  key/value contents are identical because each worker writes only its own
  key and backends are modelled as deterministic functions.  Wall-clock
  timing (`execution_time`) and log strings are omitted from the summary.
* Python `set` iteration order is modelled as first-occurrence order; every
  statement about a field built through `list(set(...))` compares it as a
  set of elements.
* In-place mutation aliasing between the returned `results_by_database`
  entries and the merged records is not modelled; the merged list itself is
  computed functionally, field for field, as the source does.
-/

namespace MultiDB

/-- A Python value as used by the coordinator: strings, integers, floats
(modelled as rationals), lists, dicts (association lists in insertion order),
and `None`. -/
inductive Value where
  | vstr (s : String)
  | vint (n : Int)
  | vfloat (q : ℚ)
  | vlist (xs : List Value)
  | vdict (kvs : List (String × Value))
  | vnone

mutual

/-- Structural boolean equality on `Value` (used to build decidable
equality; Lean cannot derive it for this nested inductive). -/
def Value.beq : Value → Value → Bool
  | .vstr a, .vstr b => a == b
  | .vint a, .vint b => a == b
  | .vfloat a, .vfloat b => a == b
  | .vnone, .vnone => true
  | .vlist xs, .vlist ys => beqVL xs ys
  | .vdict xs, .vdict ys => beqKV xs ys
  | _, _ => false

/-- Structural boolean equality on lists of values. -/
def beqVL : List Value → List Value → Bool
  | [], [] => true
  | x :: xs, y :: ys => Value.beq x y && beqVL xs ys
  | _, _ => false

/-- Structural boolean equality on dict entry lists. -/
def beqKV : List (String × Value) → List (String × Value) → Bool
  | [], [] => true
  | (k, v) :: xs, (k2, v2) :: ys => k == k2 && Value.beq v v2 && beqKV xs ys
  | _, _ => false

end

/-- Proof that `Value.beq` decides propositional equality (kept as a `def`
so that all definitions precede the theorem section). -/
def valueBeqIff : ∀ a b : Value, (Value.beq a b = true ↔ a = b) := by
  intro a b
  induction a, b using Value.beq.induct with
  | motive_2 xs ys => exact beqKV xs ys = true ↔ xs = ys
  | motive_3 xs ys => exact beqVL xs ys = true ↔ xs = ys
  | case1 a b => simp [Value.beq]
  | case2 a b => simp [Value.beq]
  | case3 a b => simp [Value.beq]
  | case4 => simp [Value.beq]
  | case5 xs ys ih => simpa [Value.beq] using ih
  | case6 xs ys ih => simpa [Value.beq] using ih
  | case7 a b h1 h2 h3 h4 h5 h6 =>
      constructor
      · intro hb
        exfalso
        cases a <;> cases b <;>
          first
            | exact absurd rfl (h1 _ _ rfl)
            | exact absurd rfl (h2 _ _ rfl)
            | exact absurd rfl (h3 _ _ rfl)
            | exact absurd rfl (h4 rfl)
            | exact absurd rfl (h5 _ _ rfl)
            | exact absurd rfl (h6 _ _ rfl)
            | simp_all [Value.beq]
      · intro he
        subst he
        exfalso
        cases a <;>
          first
            | exact absurd rfl (h1 _ _ rfl)
            | exact absurd rfl (h2 _ _ rfl)
            | exact absurd rfl (h3 _ _ rfl)
            | exact absurd rfl (h4 rfl)
            | exact absurd rfl (h5 _ _ rfl)
            | exact absurd rfl (h6 _ _ rfl)
  | case8 => simp [beqVL]
  | case9 x xs y ys ih2 ih1 => simp [beqVL, ih2, ih1]
  | case10 xs ys h1 h2 =>
      constructor
      · intro hb
        exfalso
        cases xs <;> cases ys <;>
          first
            | exact absurd rfl (h1 rfl)
            | exact absurd rfl (h2 _ _ _ _ rfl)
            | simp_all [beqVL]
      · intro he
        subst he
        exfalso
        cases xs <;>
          first
            | exact absurd rfl (h1 rfl)
            | exact absurd rfl (h2 _ _ _ _ rfl)
  | case11 => simp [beqKV]
  | case12 k v xs k2 v2 ys ih2 ih1 => simp [beqKV, ih2, ih1]
  | case13 xs ys h1 h2 =>
      constructor
      · intro hb
        exfalso
        cases xs with
        | nil =>
            cases ys with
            | nil => exact absurd rfl (h1 rfl)
            | cons b bs => simp [beqKV] at hb
        | cons a as =>
            cases ys with
            | nil => simp [beqKV] at hb
            | cons b bs => exact absurd rfl (h2 a.1 a.2 as b.1 b.2 bs (by simp))
      · intro he
        subst he
        exfalso
        cases xs with
        | nil => exact absurd rfl (h1 rfl)
        | cons a as => exact absurd rfl (h2 a.1 a.2 as a.1 a.2 as (by simp))

instance : DecidableEq Value := fun a b =>
  decidable_of_iff (Value.beq a b = true) (valueBeqIff a b)

/-- Python truthiness (`bool(v)`): empty strings/lists/dicts, `0` and `None`
are falsy. -/
def pyTruthy : Value → Bool
  | .vstr s => decide (s ≠ "")
  | .vint n => decide (n ≠ 0)
  | .vfloat q => decide (q ≠ 0)
  | .vlist xs => decide (xs ≠ [])
  | .vdict kvs => decide (kvs ≠ [])
  | .vnone => false

/-- Update an association list at a key: the first binding of the key is
replaced in place, a missing key is appended at the end.  This is Python's
`d[k] = v` on insertion-ordered dicts. -/
def updAssoc : List (String × Value) → String → Value → List (String × Value)
  | [], k, v => [(k, v)]
  | (k', v') :: rest, k, v =>
      if k' = k then (k, v) :: rest else (k', v') :: updAssoc rest k v

/-- Dictionary read with a default, Python's `d.get(k, dflt)`.  Raises
(`AttributeError`) when the receiver is not a dict. -/
def getVal (p : Value) (k : String) (dflt : Value) : Except String Value :=
  match p with
  | .vdict kvs => .ok ((kvs.lookup k).getD dflt)
  | _ => .error "AttributeError"

/-- Dictionary write, Python's `d[k] = v`.  Raises (`TypeError`) when the
receiver is not a dict. -/
def setKey (p : Value) (k : String) (v : Value) : Except String Value :=
  match p with
  | .vdict kvs => .ok (.vdict (updAssoc kvs k v))
  | _ => .error "TypeError"

/-- Calling a `str` method on a value: succeeds exactly on strings
(`AttributeError` otherwise). -/
def asStr : Value → Except String String
  | .vstr s => .ok s
  | _ => .error "AttributeError"

/-- Python `+` as used by the merge code (list and string concatenation,
numeric addition); other operand combinations raise `TypeError`. -/
def pyAdd : Value → Value → Except String Value
  | .vlist a, .vlist b => .ok (.vlist (a ++ b))
  | .vstr a, .vstr b => .ok (.vstr (a ++ b))
  | .vint a, .vint b => .ok (.vint (a + b))
  | .vfloat a, .vfloat b => .ok (.vfloat (a + b))
  | _, _ => .error "TypeError"

/-- Iterating a Python value: lists yield their elements, strings their
characters, dicts their keys; other values raise `TypeError`. -/
def pyIter : Value → Except String (List Value)
  | .vlist xs => .ok xs
  | .vstr s => .ok (s.toList.map fun c => .vstr (String.singleton c))
  | .vdict kvs => .ok (kvs.map fun kv => .vstr kv.1)
  | _ => .error "TypeError"

/-- Python `len`. -/
def pyLen : Value → Except String Nat
  | .vlist xs => .ok xs.length
  | .vstr s => .ok s.length
  | .vdict kvs => .ok kvs.length
  | _ => .error "TypeError"

/-- Whether a value may be put into a Python `set` (lists and dicts are
unhashable). -/
def valueHashable : Value → Bool
  | .vlist _ => false
  | .vdict _ => false
  | _ => true

/-- Accumulator loop for first-occurrence duplicate removal. -/
def setAcc : List Value → List Value → List Value
  | [], acc => acc.reverse
  | x :: xs, acc => if x ∈ acc then setAcc xs acc else setAcc xs (x :: acc)

/-- First-occurrence duplicate removal; models the contents of
`list(set(xs))` (set iteration order is modelled as first-occurrence
order; claims about these fields compare them as sets). -/
def dedupFO (l : List Value) : List Value := setAcc l []

/-- Building `list(set(v))` for an iterable `v`; raises on unhashable
elements and on non-iterable receivers. -/
def pySet (v : Value) : Except String (List Value) :=
  match v with
  | .vlist xs =>
      if xs.all valueHashable then .ok (dedupFO xs)
      else .error "TypeError: unhashable"
  | .vstr s => .ok (dedupFO (s.toList.map fun c => .vstr (String.singleton c)))
  | .vdict kvs => .ok (dedupFO (kvs.map fun kv => .vstr kv.1))
  | _ => .error "TypeError: not iterable"

/-- A digest value.  `md5 s` stands for `hashlib.md5(s.encode()).hexdigest()`
and `pyhash v` for the fallback `str(hash(str(v)))`; both are modelled as
collision-free by keeping the digested payload. -/
inductive Digest where
  | md5 (s : String)
  | pyhash (v : Value)

instance : DecidableEq Digest := fun a b =>
  match a, b with
  | .md5 x, .md5 y =>
      if h : x = y then isTrue (by rw [h])
      else isFalse (by intro hh; cases hh; exact h rfl)
  | .pyhash x, .pyhash y =>
      if h : x = y then isTrue (by rw [h])
      else isFalse (by intro hh; cases hh; exact h rfl)
  | .md5 _, .pyhash _ => isFalse (fun hh => Digest.noConfusion hh)
  | .pyhash _, .md5 _ => isFalse (fun hh => Digest.noConfusion hh)

/-- Python `str.strip()` on a character list: drop whitespace from both
ends (Python also strips a few rarer whitespace code points; the claims
below only involve the common ones). -/
def pyStripChars (l : List Char) : List Char :=
  ((l.dropWhile Char.isWhitespace).reverse.dropWhile Char.isWhitespace).reverse

/-- Python `str.replace(ab, "")` for a two-character pattern: remove every
non-overlapping occurrence of the pattern `a` then `b`, scanning left to
right, exactly as `str.replace` does. -/
def removePair (a b : Char) : List Char → List Char
  | [] => []
  | [c] => [c]
  | c :: d :: rest =>
      if c = a ∧ d = b then removePair a b rest
      else c :: removePair a b (d :: rest)

/-- Python `str.replace(ch, "")` for a single character: remove every
occurrence. -/
def removeChar (a : Char) (l : List Char) : List Char :=
  l.filter fun c => decide (c ≠ a)

/-- Normalisation applied to the patent number inside
`_calculate_patent_hash`: `strip().upper()` followed by
`.replace("US","").replace("TW","").replace("-","").replace(" ","")`
(each `replace` removes every occurrence, not only a leading prefix).
Implemented over `List Char`; `Char.toUpper` is ASCII-only, like the
inputs the claims quantify over. -/
def normalizedNumber (pn : String) : String :=
  String.mk
    (removeChar ' ' (removeChar '-'
      (removePair 'T' 'W' (removePair 'U' 'S'
        ((pyStripChars pn.toList).map Char.toUpper)))))

/-- Normalisation applied to the title inside `_calculate_patent_hash`:
`strip().lower()`. -/
def normalizedTitle (t : String) : String :=
  String.mk ((pyStripChars t.toList).map Char.toLower)

/-- Body of the `try` block of `_calculate_patent_hash`: extract and
normalise `patent_number` and `title` and build `f"{patent_number}|{title}"`.
Raises when the record is not a dict or either field holds a non-string. -/
def hashStringOf (p : Value) : Except String String := do
  let pnv ← getVal p "patent_number" (.vstr "")
  let pn0 ← asStr pnv
  let tv ← getVal p "title" (.vstr "")
  let t0 ← asStr tv
  .ok (normalizedNumber pn0 ++ "|" ++ normalizedTitle t0)

/-- Model of `_calculate_patent_hash`: MD5 of the normalised `number|title`
string, falling back to `str(hash(str(patent)))` when the `try` body
raises. -/
def calculate_patent_hash (p : Value) : Digest :=
  match hashStringOf p with
  | .ok s => .md5 s
  | .error _ => .pyhash p

/-- Modelled from the spec's words (§4.3), for comparison with the source's
`normalizedNumber`: uppercase, strip all non-alphanumeric characters, then
strip the country-code tokens "US" and "TW" when they occur as a leading
prefix (exact prefix match only). -/
def specNormalizeNumber (pn : String) : String :=
  let u := (pn.toList.map Char.toUpper).filter Char.isAlphanum
  match u with
  | 'U' :: 'S' :: rest => String.mk rest
  | 'T' :: 'W' :: rest => String.mk rest
  | other => String.mk other

/-- Run a sequence of fallible update steps on a value; the first raising
step aborts the remaining steps but keeps the mutations made so far.  This
models the single `try/except` block of `_merge_patent_info`, whose handler
only logs: mutations made before the raise persist. -/
def runSteps : Value → List (Value → Except String Value) → Value
  | v, [] => v
  | v, s :: rest =>
      match s v with
      | .ok v2 => runSteps v2 rest
      | .error _ => v

/-- One set-union merge step of `_merge_patent_info`:
`existing[f] = list(set(existing.get(f, []) + new.get(f, [])))`. -/
def unionStep (f : String) (n : Value) (e : Value) : Except String Value := do
  let ev ← getVal e f (.vlist [])
  let nv ← getVal n f (.vlist [])
  let s ← pyAdd ev nv
  let c ← pySet s
  setKey e f (.vlist c)

/-- One fill-forward step of `_merge_patent_info`:
`if not existing.get(f) and new.get(f): existing[f] = new[f]`. -/
def fillStep (f : String) (n : Value) (e : Value) : Except String Value := do
  let ev ← getVal e f .vnone
  let nv ← getVal n f .vnone
  if ¬ pyTruthy ev ∧ pyTruthy nv then setKey e f nv else .ok e

/-- Model of `_merge_patent_info`: union-merge `inventors`, `applicants`,
`ipc_classes`, fill-forward `abstract`, `claims`, `description`, then
union-merge `images`, in source order, with the whole sequence guarded by
one exception handler that keeps partial mutations. -/
def merge_patent_info (e n : Value) : Value :=
  runSteps e
    [unionStep "inventors" n, unionStep "applicants" n, unionStep "ipc_classes" n,
     fillStep "abstract" n, fillStep "claims" n, fillStep "description" n,
     unionStep "images" n]

/-- Merging a duplicate `p` into the already-kept record `e` inside
`_deduplicate_patents`: union the `source_databases` lists through a set,
then apply `_merge_patent_info`. -/
def mergeRecord (e p : Value) : Except String Value := do
  let es ← getVal e "source_databases" (.vlist [])
  let ns ← getVal p "source_databases" (.vlist [])
  let s ← pyAdd es ns
  let comb ← pySet s
  let e2 ← setKey e "source_databases" (.vlist comb)
  .ok (merge_patent_info e2 p)

/-- Scan of the `deduplicated` list inside `_deduplicate_patents`: merge the
incoming duplicate into the first kept record with the same hash (`break`
after the first match); when no record matches, the list is unchanged and
the duplicate is dropped. -/
def mergeIntoFirst : List Value → Digest → Value → Except String (List Value)
  | [], _, _ => .ok []
  | e :: rest, h, p =>
      if calculate_patent_hash e = h then do
        let e2 ← mergeRecord e p
        .ok (e2 :: rest)
      else do
        let rest2 ← mergeIntoFirst rest h p
        .ok (e :: rest2)

/-- Main loop of `_deduplicate_patents` over the incoming records, carrying
the kept records (in first-seen order) and the set of seen hashes. -/
def dedupGo : List Value → List Value → List Digest → Except String (List Value)
  | [], acc, _ => .ok acc
  | p :: ps, acc, seen =>
      let h := calculate_patent_hash p
      if h ∈ seen then do
        let acc2 ← mergeIntoFirst acc h p
        dedupGo ps acc2 seen
      else dedupGo ps (acc ++ [p]) (h :: seen)

/-- Model of `_deduplicate_patents`: empty input short-circuits; an
exception inside the loop is caught and the *original* list is returned
(the handler returns `patents`, not `[]`). -/
def deduplicate_patents (patents : List Value) : List Value :=
  if patents = [] then []
  else
    match dedupGo patents [] [] with
    | .ok l => l
    | .error _ => patents

/-- Tagging loop of `_merge_and_deduplicate_results`:
`patent["source_databases"] = [db]` for every collected record. -/
def tagAll (db : String) : List Value → Except String (List Value)
  | [] => .ok []
  | p :: ps => do
      let p2 ← setKey p "source_databases" (.vlist [.vstr db])
      let rest ← tagAll db ps
      .ok (p2 :: rest)

/-- Collection phase of `_merge_and_deduplicate_results`: flatten the
`results` of every backend entry whose `status` is `"completed"`, tagging
each record with its source database. -/
def collectFromEntries : List (String × Value) → Except String (List Value)
  | [] => .ok []
  | (db, r) :: rest => do
      let st ← getVal r "status" .vnone
      let here ←
        if st = Value.vstr "completed" then do
          let ps ← getVal r "results" (.vlist [])
          let items ← pyIter ps
          tagAll db items
        else pure []
      let more ← collectFromEntries rest
      .ok (here ++ more)

/-- Model of `_merge_and_deduplicate_results`: collect and deduplicate; any
exception inside the `try` block degrades to an empty merged list. -/
def merge_and_deduplicate_results (results : List (String × Value)) : List Value :=
  match collectFromEntries results with
  | .ok ps => deduplicate_patents ps
  | .error _ => []

/-- Summation `sum(len(result.get("results", [])) for result in
results.values())` shared by `_calculate_dedup_ratio` and the summary. -/
def totalOriginal : List (String × Value) → Except String Nat
  | [] => .ok 0
  | (_, r) :: rest => do
      let ps ← getVal r "results" (.vlist [])
      let n ← pyLen ps
      let m ← totalOriginal rest
      .ok (n + m)

/-- Model of `_calculate_dedup_ratio`: `(total_original - total_merged) /
total_original`, `0.0` when `total_original == 0`, and `0.0` when the
computation raises (its own `except` handler). -/
def calculate_dedup_ratio (results : List (String × Value)) (merged : List Value) : ℚ :=
  match totalOriginal results with
  | .error _ => 0
  | .ok o => if o = 0 then 0 else ((o : ℚ) - (merged.length : ℚ)) / (o : ℚ)

/-- Registered backend ids of `MultiDBCoordinator.__init__` (`self.bots`). -/
def bots : List String := ["twpat", "uspto"]

/-- Message of the per-database failure entry for an unregistered id
("unsupported database"). -/
def unsupportedMsg : String := "不支援的資料庫"

/-- Per-database failure entry built by the coordinator's handlers:
`{"status": "failed", "error": msg, "total_found": 0, "results": [],
"downloaded_files": []}`. -/
def failedEntry (msg : String) : Value :=
  .vdict [("status", .vstr "failed"), ("error", .vstr msg),
          ("total_found", .vint 0), ("results", .vlist []),
          ("downloaded_files", .vlist [])]

/-- Sequential-mode treatment of one requested id (`_search_sequential`
loop body): an unregistered id yields the "unsupported database" failure
entry; a raising backend call is caught and converted to a failure entry;
otherwise the backend's result dictionary is stored. -/
def entryFor (behavior : String → Except String Value) (db : String) : Value :=
  if db ∈ bots then
    match behavior db with
    | .ok r => r
    | .error e => failedEntry e
  else failedEntry unsupportedMsg

/-- Parallel-mode treatment of one submitted worker (`_search_parallel`
result collection): a raising worker is caught and converted to a failure
entry; unregistered ids are never submitted. -/
def parEntry (behavior : String → Except String Value) (db : String) : Value :=
  match behavior db with
  | .ok r => r
  | .error e => failedEntry e

/-- Result-map construction: one `results[db] = entry` dict write per
processed id (later duplicates overwrite in place, as Python dicts do). -/
def buildMap (f : String → Value) (dbs : List String) : List (String × Value) :=
  dbs.foldl (fun acc db => updAssoc acc db (f db)) []

/-- Model of `_search_sequential`: every requested id receives an entry. -/
def search_sequential (behavior : String → Except String Value)
    (dbs : List String) : List (String × Value) :=
  buildMap (entryFor behavior) dbs

/-- Model of `_search_parallel`.  `ThreadPoolExecutor(max_workers=
len(databases))` raises `ValueError` when the list is empty (cpython
requires `max_workers > 0`); that exception is re-raised by the method's
own handler.  Only registered ids are submitted as workers; unregistered
ids are logged and receive no entry. -/
def search_parallel (behavior : String → Except String Value)
    (dbs : List String) : Except String (List (String × Value)) :=
  if dbs.length = 0 then .error "max_workers must be greater than 0"
  else .ok (buildMap (parEntry behavior) (dbs.filter fun db => decide (db ∈ bots)))

/-- Summary phase: flatten `result.get("downloaded_files", [])` over all
entries (`extend` requires an iterable). -/
def gatherDownloaded : List (String × Value) → Except String (List Value)
  | [] => .ok []
  | (_, r) :: rest => do
      let fv ← getVal r "downloaded_files" (.vlist [])
      let items ← pyIter fv
      let more ← gatherDownloaded rest
      .ok (items ++ more)

/-- Summary phase: `{db: len(result.get("results", []))}`. -/
def totalFoundByDb : List (String × Value) → Except String (List (String × Value))
  | [] => .ok []
  | (db, r) :: rest => do
      let ps ← getVal r "results" (.vlist [])
      let n ← pyLen ps
      let more ← totalFoundByDb rest
      .ok ((db, Value.vint n) :: more)

/-- Dispatch phase of `search_multiple_databases`: parallel or sequential
mode produces the per-database result map (or an escaping exception). -/
def resultsMapOf (behavior : String → Except String Value)
    (dbs : List String) (parallel : Bool) : Except String (List (String × Value)) :=
  if parallel then search_parallel behavior dbs
  else .ok (search_sequential behavior dbs)

/-- Model of `search_multiple_databases`: dispatch (parallel or
sequential), merge and deduplicate, then build the summary dictionary; any
exception escaping the `try` block yields the `status: "failed"` summary.
`execution_time` and `execution_log` are omitted (wall-clock and logging). -/
def search_multiple_databases (behavior : String → Except String Value)
    (dbs : List String) (parallel : Bool) : Value :=
  match (do
    let results ← resultsMapOf behavior dbs parallel
    let merged := merge_and_deduplicate_results results
    let files ← gatherDownloaded results
    let byDb ← totalFoundByDb results
    let total ← totalOriginal results
    pure (Value.vdict
      [("status", .vstr "completed"),
       ("databases_searched", .vlist (dbs.map .vstr)),
       ("total_found_by_db", .vdict byDb),
       ("total_found", .vint total),
       ("merged_count", .vint merged.length),
       ("deduplication_ratio", .vfloat (calculate_dedup_ratio results merged)),
       ("results", .vlist merged),
       ("results_by_database", .vdict results),
       ("downloaded_files", .vlist files)]) : Except String Value) with
  | .ok summary => summary
  | .error e =>
      .vdict
        [("status", .vstr "failed"),
         ("error", .vstr e),
         ("databases_searched", .vlist (dbs.map .vstr)),
         ("total_found", .vint 0),
         ("merged_count", .vint 0),
         ("results", .vlist []),
         ("downloaded_files", .vlist [])]

/-- Lookup in a dict value (`none` on non-dicts and missing keys); used to
state properties. -/
def dictLookup : Value → String → Option Value
  | .vdict kvs, k => kvs.lookup k
  | _, _ => none

/-- Whether a value is a dict. -/
def isDictB : Value → Bool
  | .vdict _ => true
  | _ => false

/-- Whether field `k` of record `r` is absent or holds a string. -/
def strOrMissing (r : Value) (k : String) : Bool :=
  match dictLookup r k with
  | Option.none => true
  | some (.vstr _) => true
  | some _ => false

/-- A well-formed patent record for hashing purposes: a dict whose
`patent_number` and `title` are strings or absent (so `_calculate_patent_hash`
takes the normal MD5 path). -/
def patentWF (p : Value) : Bool :=
  isDictB p && strOrMissing p "patent_number" && strOrMissing p "title"

/-- A well-formed backend result dictionary: `results` absent or a list of
well-formed patent records, `downloaded_files` absent or a list. -/
def okValueWF (r : Value) : Bool :=
  isDictB r &&
  (match dictLookup r "results" with
   | Option.none => true
   | some (.vlist ps) => ps.all patentWF
   | some _ => false) &&
  (match dictLookup r "downloaded_files" with
   | Option.none => true
   | some (.vlist _) => true
   | some _ => false)

/-- A backend function whose successful results are well-formed result
dictionaries. -/
def behaviorWF (behavior : String → Except String Value) : Prop :=
  ∀ db r, behavior db = .ok r → okValueWF r = true

/-- Whether the `source_databases` field is absent or a list of hashable
values (so the set-union in the dedup merge cannot raise). -/
def sourcesOkB (p : Value) : Bool :=
  match dictLookup p "source_databases" with
  | Option.none => true
  | some (.vlist xs) => xs.all valueHashable
  | some _ => false

/-- Shape of a record after the collection phase: a dict with a mergeable
`source_databases` field. -/
def taggedB (p : Value) : Bool := isDictB p && sourcesOkB p

/-- Elements of a list-valued field (missing and non-list fields read as the
empty collection); used to compare list fields as sets. -/
def fieldElems (r : Value) (f : String) : List Value :=
  match dictLookup r f with
  | some (.vlist xs) => xs
  | _ => []

/-- Whether field `f` is absent or a list of hashable values (so the
set-union merge step for `f` cannot raise). -/
def fieldOkB (r : Value) (f : String) : Bool :=
  match dictLookup r f with
  | Option.none => true
  | some (.vlist xs) => xs.all valueHashable
  | some _ => false

/-- The multi-valued record fields that the merge unions as sets. -/
def listFields : List String := ["source_databases", "inventors", "applicants", "ipc_classes", "images"]

/-- Record equivalence used by the idempotence claim: the union-merged list
fields agree as sets, every other field agrees exactly. -/
def recordEquiv (a b : Value) : Prop :=
  (∀ f ∈ listFields, ∀ v, v ∈ fieldElems a f ↔ v ∈ fieldElems b f) ∧
  (∀ k, k ∉ listFields → dictLookup a k = dictLookup b k)

/-- A fully well-formed patent record: hashable-string identity fields and
mergeable multi-valued fields. -/
def recordWF (p : Value) : Bool :=
  patentWF p && fieldOkB p "source_databases" && fieldOkB p "inventors" &&
  fieldOkB p "applicants" && fieldOkB p "ipc_classes" && fieldOkB p "images"

/-- Result of merging a record with itself inside the dedup loop (proof
device for the idempotence argument). -/
def selfMergeFn (p : Value) : Value :=
  match mergeRecord p p with
  | .ok v => v
  | .error _ => p

/-- The string content of a record field as read by the hash: the value for
a string field, `""` for a missing one (the `.get(k, "")` default); only
meaningful under `strOrMissing`. -/
def strFieldD (r : Value) (k : String) : String :=
  match dictLookup r k with
  | some (.vstr s) => s
  | _ => ""

/-- The record fields written by `_merge_patent_info`, in step order. -/
def mergedFields : List String :=
  ["inventors", "applicants", "ipc_classes", "abstract", "claims", "description", "images"]

/-- A minimal completed backend result with no records (sample data). -/
def emptyCompleted : Value :=
  .vdict [("status", .vstr "completed"), ("total_found", .vint 0),
          ("results", .vlist []), ("downloaded_files", .vlist [])]

/-- A backend map where every backend succeeds with no records (sample
data). -/
def behavior0 : String → Except String Value := fun _ => .ok emptyCompleted

/-- Sample record: a US patent as returned by the USPTO backend. -/
def recA : Value :=
  .vdict [("patent_number", .vstr "US1234567"), ("title", .vstr "Widget")]

/-- Sample record: the same patent as returned by the TWPAT backend
(different number formatting and title case, equal fingerprint). -/
def recB : Value :=
  .vdict [("patent_number", .vstr "1234567"), ("title", .vstr "widget ")]

/-- Sample per-database result map: two completed backends, one record
each, the two records fingerprint-equal. -/
def resultsW : List (String × Value) :=
  [("uspto", .vdict [("status", .vstr "completed"), ("results", .vlist [recA])]),
   ("twpat", .vdict [("status", .vstr "completed"), ("results", .vlist [recB])])]

/-- Sample completed backend result holding one record (sample data). -/
def okResult7 : Value :=
  .vdict [("status", .vstr "completed"), ("total_found", .vint 1),
          ("results", .vlist [recA]), ("downloaded_files", .vlist [])]

/-- Sample backend map where the `twpat` call raises and every other
backend succeeds with one record (sample data). -/
def behavior7 : String → Except String Value := fun db =>
  if db = "twpat" then .error "boom" else .ok okResult7

/-- Sample record with multi-valued fields, fingerprint-distinct from
`recA` (sample data). -/
def recC : Value :=
  .vdict [("patent_number", .vstr "TW999"), ("title", .vstr "Gear"),
          ("abstract", .vstr ""),
          ("inventors", .vlist [.vstr "a", .vstr "a"]),
          ("source_databases", .vlist [.vstr "twpat"])]

/-- Sample deduplicated list: two well-formed records with distinct
fingerprints (sample data). -/
def lw : List Value := [recA, recC]

theorem lookup_cons_self (k : String) (v : Value) (rest : List (String × Value)) :
    List.lookup k ((k, v) :: rest) = some v := by
  simp [List.lookup]

theorem lookup_cons_ne {k k' : String} (v : Value) (rest : List (String × Value))
    (h : k ≠ k') : List.lookup k ((k', v) :: rest) = List.lookup k rest := by
  have hb : (k == k') = false := beq_eq_false_iff_ne.mpr h
  simp [List.lookup, hb]

theorem lookup_updAssoc_self (m : List (String × Value)) (k : String) (v : Value) :
    (updAssoc m k v).lookup k = some v := by
  induction m with
  | nil => simp [updAssoc, lookup_cons_self]
  | cons e rest ih =>
      obtain ⟨k', v'⟩ := e
      by_cases h : k' = k
      · subst h
        simp [updAssoc, lookup_cons_self]
      · rw [updAssoc, if_neg h, lookup_cons_ne _ _ (fun hh => h hh.symm)]
        exact ih

theorem lookup_updAssoc_ne (m : List (String × Value)) (k k2 : String) (v : Value)
    (h : k2 ≠ k) : (updAssoc m k v).lookup k2 = m.lookup k2 := by
  induction m with
  | nil =>
      show List.lookup k2 [(k, v)] = List.lookup k2 []
      rw [lookup_cons_ne _ _ h]
  | cons e rest ih =>
      obtain ⟨k', v'⟩ := e
      by_cases hk : k' = k
      · subst hk
        rw [updAssoc, if_pos rfl, lookup_cons_ne _ _ h, lookup_cons_ne _ _ h]
      · rw [updAssoc, if_neg hk]
        by_cases h2 : k2 = k'
        · subst h2
          rw [lookup_cons_self, lookup_cons_self]
        · rw [lookup_cons_ne _ _ h2, lookup_cons_ne _ _ h2]
          exact ih

theorem mem_updAssoc {k : String} {v : Value} {e : String × Value} :
    ∀ {m : List (String × Value)}, e ∈ updAssoc m k v → e = (k, v) ∨ e ∈ m := by
  intro m
  induction m with
  | nil => intro h; simpa [updAssoc] using h
  | cons e' rest ih =>
      obtain ⟨k', v'⟩ := e'
      intro h
      by_cases hk : k' = k
      · subst hk
        rw [updAssoc, if_pos rfl] at h
        rcases List.mem_cons.mp h with h1 | h1
        · exact Or.inl h1
        · exact Or.inr (List.mem_cons_of_mem _ h1)
      · rw [updAssoc, if_neg hk] at h
        rcases List.mem_cons.mp h with h1 | h1
        · exact Or.inr (by simp [h1])
        · rcases ih h1 with h2 | h2
          · exact Or.inl h2
          · exact Or.inr (List.mem_cons_of_mem _ h2)

theorem lookup_foldl_updAssoc (f : String → Value) (dbs : List String)
    (acc : List (String × Value)) (k : String) :
    (dbs.foldl (fun a d => updAssoc a d (f d)) acc).lookup k =
      if k ∈ dbs then some (f k) else acc.lookup k := by
  induction dbs generalizing acc with
  | nil => simp
  | cons d rest ih =>
      by_cases hd : k = d
      · subst hd
        by_cases hr : k ∈ rest
        · simp [List.foldl_cons, ih, hr]
        · simp [List.foldl_cons, ih, hr, lookup_updAssoc_self]
      · simp [List.foldl_cons, ih, hd, lookup_updAssoc_ne _ _ _ _ hd,
          List.mem_cons, fun hh : k = d => hd hh]

theorem lookup_buildMap (f : String → Value) (dbs : List String) (k : String) :
    (buildMap f dbs).lookup k = if k ∈ dbs then some (f k) else none := by
  simpa [buildMap, List.lookup] using lookup_foldl_updAssoc f dbs [] k

theorem mem_foldl_updAssoc {f : String → Value} {dbs : List String}
    {acc : List (String × Value)} {e : String × Value}
    (h : e ∈ dbs.foldl (fun a d => updAssoc a d (f d)) acc) :
    e.2 = f e.1 ∨ e ∈ acc := by
  induction dbs generalizing acc with
  | nil => exact Or.inr h
  | cons d rest ih =>
      rcases ih (by simpa [List.foldl_cons] using h) with h2 | h2
      · exact Or.inl h2
      · rcases mem_updAssoc h2 with h3 | h3
        · exact Or.inl (by simp [h3])
        · exact Or.inr h3

theorem mem_buildMap {f : String → Value} {dbs : List String} {e : String × Value}
    (h : e ∈ buildMap f dbs) : e.2 = f e.1 := by
  rcases mem_foldl_updAssoc h with h2 | h2
  · exact h2
  · simp at h2

theorem lookup_mem {m : List (String × Value)} {k : String} {v : Value}
    (h : m.lookup k = some v) : (k, v) ∈ m := by
  induction m with
  | nil => simp [List.lookup] at h
  | cons e rest ih =>
      obtain ⟨k', v'⟩ := e
      by_cases hk : k = k'
      · subst hk
        rw [lookup_cons_self] at h
        simp at h
        simp [h]
      · rw [lookup_cons_ne _ _ hk] at h
        exact List.mem_cons_of_mem _ (ih h)

theorem mem_setAcc (l acc : List Value) (y : Value) :
    y ∈ setAcc l acc ↔ y ∈ l ∨ y ∈ acc := by
  induction l generalizing acc with
  | nil => simp [setAcc]
  | cons x xs ih =>
      by_cases hx : x ∈ acc
      · simp only [setAcc, if_pos hx, ih, List.mem_cons]
        constructor
        · rintro (h | h)
          · exact Or.inl (Or.inr h)
          · exact Or.inr h
        · rintro ((h | h) | h)
          · exact Or.inr (h ▸ hx)
          · exact Or.inl h
          · exact Or.inr h
      · simp only [setAcc, if_neg hx, ih, List.mem_cons]
        tauto

theorem mem_dedupFO (l : List Value) (y : Value) : y ∈ dedupFO l ↔ y ∈ l := by
  simp [dedupFO, mem_setAcc]

theorem patentWF_hashString {p : Value} (h : patentWF p = true) :
    hashStringOf p = .ok (normalizedNumber (strFieldD p "patent_number") ++ "|" ++
      normalizedTitle (strFieldD p "title")) := by
  obtain ⟨kvs, rfl⟩ : ∃ kvs, p = .vdict kvs := by
    cases p <;> simp_all [patentWF, isDictB]
  simp only [patentWF, Bool.and_eq_true] at h
  obtain ⟨⟨-, hpn⟩, ht⟩ := h
  simp only [hashStringOf, getVal, strFieldD, dictLookup, bind, Except.bind]
  cases hl : kvs.lookup "patent_number" with
  | none =>
      cases hl2 : kvs.lookup "title" with
      | none => simp [asStr]
      | some tv => cases tv <;> simp_all [strOrMissing, dictLookup, asStr]
  | some pv =>
      cases pv <;> simp_all [strOrMissing, dictLookup, asStr]
      cases hl2 : kvs.lookup "title" with
      | none => simp [asStr]
      | some tv => cases tv <;> simp_all [asStr]

theorem hashString_ok_patentWF {p : Value} {s : String} (h : hashStringOf p = .ok s) :
    patentWF p = true := by
  cases p with
  | vdict kvs =>
      simp only [hashStringOf, getVal, bind, Except.bind] at h
      simp only [patentWF, isDictB, strOrMissing, dictLookup, Bool.and_eq_true]
      refine ⟨⟨trivial, ?_⟩, ?_⟩
      · cases hl : kvs.lookup "patent_number" with
        | none => rfl
        | some pv => cases pv <;> simp_all [asStr]
      · cases hl : kvs.lookup "title" with
        | none => rfl
        | some tv =>
            cases tv <;>
              cases hl2 : (kvs.lookup "patent_number").getD (Value.vstr "") <;>
              simp_all [asStr]
  | vstr s2 => simp [hashStringOf, getVal, bind, Except.bind] at h
  | vint n => simp [hashStringOf, getVal, bind, Except.bind] at h
  | vfloat q => simp [hashStringOf, getVal, bind, Except.bind] at h
  | vlist xs => simp [hashStringOf, getVal, bind, Except.bind] at h
  | vnone => simp [hashStringOf, getVal, bind, Except.bind] at h

theorem hashStringOf_congr {a b : Value} (ha : isDictB a = true) (hb : isDictB b = true)
    (h1 : dictLookup a "patent_number" = dictLookup b "patent_number")
    (h2 : dictLookup a "title" = dictLookup b "title") :
    hashStringOf a = hashStringOf b := by
  obtain ⟨ka, rfl⟩ : ∃ k, a = .vdict k := by cases a <;> simp_all [isDictB]
  obtain ⟨kb, rfl⟩ : ∃ k, b = .vdict k := by cases b <;> simp_all [isDictB]
  simp only [dictLookup] at h1 h2
  simp only [hashStringOf, getVal, h1, h2]

theorem hash_md5_of_patentWF {p : Value} (h : patentWF p = true) :
    calculate_patent_hash p = .md5 (normalizedNumber (strFieldD p "patent_number") ++ "|" ++
      normalizedTitle (strFieldD p "title")) := by
  rw [calculate_patent_hash, patentWF_hashString h]

theorem hash_pyhash_of_not_patentWF {p : Value} (h : patentWF p = false) :
    calculate_patent_hash p = .pyhash p := by
  rw [calculate_patent_hash]
  cases hs : hashStringOf p with
  | ok s => rw [hashString_ok_patentWF hs] at h; cases h
  | error e => rfl

theorem patentWF_of_md5 {p : Value} {s : String}
    (h : calculate_patent_hash p = .md5 s) : patentWF p = true := by
  rw [calculate_patent_hash] at h
  cases hs : hashStringOf p with
  | ok s2 => exact hashString_ok_patentWF hs
  | error e => rw [hs] at h; cases h

theorem hash_congr {a b : Value} (ha : isDictB a = true) (hb : isDictB b = true)
    (hwf : patentWF a = true)
    (h1 : dictLookup a "patent_number" = dictLookup b "patent_number")
    (h2 : dictLookup a "title" = dictLookup b "title") :
    calculate_patent_hash a = calculate_patent_hash b := by
  have hsa := patentWF_hashString hwf
  have hsb : hashStringOf b = hashStringOf a := (hashStringOf_congr ha hb h1 h2).symm
  rw [calculate_patent_hash, calculate_patent_hash, hsb, hsa]


theorem fillStep_yes {f : String} {kvs kn : List (String × Value)}
    (h1 : pyTruthy ((kvs.lookup f).getD .vnone) = false)
    (h2 : pyTruthy ((kn.lookup f).getD .vnone) = true) :
    fillStep f (.vdict kn) (.vdict kvs) =
      .ok (.vdict (updAssoc kvs f ((kn.lookup f).getD .vnone))) := by
  simp only [fillStep, getVal, bind, Except.bind]
  rw [if_pos ⟨by simp [h1], h2⟩]
  rfl

theorem fillStep_no {f : String} {kvs kn : List (String × Value)}
    (h : ¬ (pyTruthy ((kvs.lookup f).getD .vnone) = false ∧
        pyTruthy ((kn.lookup f).getD .vnone) = true)) :
    fillStep f (.vdict kn) (.vdict kvs) = .ok (.vdict kvs) := by
  simp only [fillStep, getVal, bind, Except.bind]
  rw [if_neg]
  intro hc
  exact h ⟨by simpa using hc.1, hc.2⟩

theorem unionStep_preserves {f : String} {n e e2 : Value}
    (h : unionStep f n e = .ok e2) :
    isDictB e2 = true ∧ ∀ k, k ≠ f → dictLookup e2 k = dictLookup e k := by
  cases e with
  | vdict kvs =>
      cases n with
      | vdict kn =>
          simp only [unionStep, getVal, bind, Except.bind] at h
          cases ha : pyAdd ((kvs.lookup f).getD (.vlist []))
              ((kn.lookup f).getD (.vlist [])) with
          | error err => rw [ha] at h; simp at h
          | ok s =>
              rw [ha] at h
              dsimp only at h
              cases hs : pySet s with
              | error err => rw [hs] at h; simp at h
              | ok c =>
                  rw [hs] at h
                  simp only [setKey] at h
                  cases h
                  refine ⟨rfl, fun k hk => ?_⟩
                  simp only [dictLookup]
                  exact lookup_updAssoc_ne _ _ _ _ hk
      | vstr s => simp [unionStep, getVal, bind, Except.bind] at h
      | vint i => simp [unionStep, getVal, bind, Except.bind] at h
      | vfloat q => simp [unionStep, getVal, bind, Except.bind] at h
      | vlist xs => simp [unionStep, getVal, bind, Except.bind] at h
      | vnone => simp [unionStep, getVal, bind, Except.bind] at h
  | vstr s => simp [unionStep, getVal, bind, Except.bind] at h
  | vint i => simp [unionStep, getVal, bind, Except.bind] at h
  | vfloat q => simp [unionStep, getVal, bind, Except.bind] at h
  | vlist xs => simp [unionStep, getVal, bind, Except.bind] at h
  | vnone => simp [unionStep, getVal, bind, Except.bind] at h

theorem fillStep_preserves {f : String} {n e e2 : Value}
    (h : fillStep f n e = .ok e2) :
    isDictB e2 = true ∧ ∀ k, k ≠ f → dictLookup e2 k = dictLookup e k := by
  cases e with
  | vdict kvs =>
      cases n with
      | vdict kn =>
          simp only [fillStep, getVal, bind, Except.bind] at h
          by_cases hc : ¬ pyTruthy ((kvs.lookup f).getD .vnone) = true ∧
              pyTruthy ((kn.lookup f).getD .vnone) = true
          · rw [if_pos hc] at h
            simp only [setKey] at h
            cases h
            refine ⟨rfl, fun k hk => ?_⟩
            simp only [dictLookup]
            exact lookup_updAssoc_ne _ _ _ _ hk
          · rw [if_neg hc] at h
            cases h
            exact ⟨rfl, fun k hk => rfl⟩
      | vstr s => simp [fillStep, getVal, bind, Except.bind] at h
      | vint i => simp [fillStep, getVal, bind, Except.bind] at h
      | vfloat q => simp [fillStep, getVal, bind, Except.bind] at h
      | vlist xs => simp [fillStep, getVal, bind, Except.bind] at h
      | vnone => simp [fillStep, getVal, bind, Except.bind] at h
  | vstr s => simp [fillStep, getVal, bind, Except.bind] at h
  | vint i => simp [fillStep, getVal, bind, Except.bind] at h
  | vfloat q => simp [fillStep, getVal, bind, Except.bind] at h
  | vlist xs => simp [fillStep, getVal, bind, Except.bind] at h
  | vnone => simp [fillStep, getVal, bind, Except.bind] at h

theorem runSteps_preserve (P : Value → Prop) :
    ∀ (steps : List (Value → Except String Value)) (v : Value),
      (∀ s ∈ steps, ∀ a b, P a → s a = .ok b → P b) → P v → P (runSteps v steps) := by
  intro steps
  induction steps with
  | nil => intro v _ hv; exact hv
  | cons s rest ih =>
      intro v hsteps hv
      rw [runSteps]
      cases hs : s v with
      | ok v2 =>
          exact ih v2 (fun s2 hs2 => hsteps s2 (List.mem_cons_of_mem _ hs2))
            (hsteps s (List.mem_cons_self _ _) v v2 hv hs)
      | error e => exact hv



theorem mergeInfo_preserves {e n : Value} (hd : isDictB e = true) (k : String)
    (hk : k ∉ mergedFields) :
    isDictB (merge_patent_info e n) = true ∧
    dictLookup (merge_patent_info e n) k = dictLookup e k := by
  have hne : ¬ (k = "inventors" ∨ k = "applicants" ∨ k = "ipc_classes" ∨
      k = "abstract" ∨ k = "claims" ∨ k = "description" ∨ k = "images") := by
    simpa [mergedFields] using hk
  push_neg at hne
  obtain ⟨h1, h2, h3, h4, h5, h6, h7⟩ := hne
  rw [merge_patent_info]
  refine runSteps_preserve
    (fun v => isDictB v = true ∧ dictLookup v k = dictLookup e k) _ e ?_ ⟨hd, rfl⟩
  intro s hs a b hPa hsab
  obtain ⟨hda, hla⟩ := hPa
  simp only [List.mem_cons, List.not_mem_nil, or_false] at hs
  rcases hs with rfl | rfl | rfl | rfl | rfl | rfl | rfl
  · obtain ⟨hdb, hlb⟩ := unionStep_preserves hsab
    exact ⟨hdb, (hlb _ h1).trans hla⟩
  · obtain ⟨hdb, hlb⟩ := unionStep_preserves hsab
    exact ⟨hdb, (hlb _ h2).trans hla⟩
  · obtain ⟨hdb, hlb⟩ := unionStep_preserves hsab
    exact ⟨hdb, (hlb _ h3).trans hla⟩
  · obtain ⟨hdb, hlb⟩ := fillStep_preserves hsab
    exact ⟨hdb, (hlb _ h4).trans hla⟩
  · obtain ⟨hdb, hlb⟩ := fillStep_preserves hsab
    exact ⟨hdb, (hlb _ h5).trans hla⟩
  · obtain ⟨hdb, hlb⟩ := fillStep_preserves hsab
    exact ⟨hdb, (hlb _ h6).trans hla⟩
  · obtain ⟨hdb, hlb⟩ := unionStep_preserves hsab
    exact ⟨hdb, (hlb _ h7).trans hla⟩

theorem fieldOkB_elems {r : Value} {f : String} (h : fieldOkB r f = true) :
    ∀ x ∈ fieldElems r f, valueHashable x = true := by
  simp only [fieldOkB] at h
  intro x hx
  simp only [fieldElems] at hx
  cases hl : dictLookup r f with
  | none => rw [hl] at hx; simp at hx
  | some v =>
      rw [hl] at h hx
      cases v <;> simp_all [List.all_eq_true]

theorem mergeRecord_spec {p : Value} {kvs : List (String × Value)}
    (hse : fieldOkB (.vdict kvs) "source_databases" = true) (hp : taggedB p = true) :
    mergeRecord (.vdict kvs) p = .ok (merge_patent_info
      (.vdict (updAssoc kvs "source_databases"
        (.vlist (dedupFO (fieldElems (.vdict kvs) "source_databases" ++
          fieldElems p "source_databases"))))) p) := by
  obtain ⟨kp, rfl⟩ : ∃ k, p = .vdict k := by
    cases p <;> simp_all [taggedB, isDictB]
  have hsp : fieldOkB (.vdict kp) "source_databases" = true := by
    simpa [taggedB, sourcesOkB, fieldOkB, isDictB] using hp
  simp only [fieldOkB, dictLookup] at hse hsp
  simp only [mergeRecord, getVal, bind, Except.bind, fieldElems, dictLookup]
  cases hle : kvs.lookup "source_databases" with
  | none =>
      cases hlf : kp.lookup "source_databases" with
      | none => simp [pyAdd, pySet, setKey]
      | some nv =>
          rw [hlf] at hsp
          cases nv <;> simp_all [pyAdd, pySet, setKey]
  | some ev =>
      rw [hle] at hse
      cases ev <;> simp_all [pyAdd, pySet, setKey]
      rename_i xsE
      cases hlf : kp.lookup "source_databases" with
      | none =>
          simp only [Option.getD_none, Option.getD_some, pyAdd, pySet, setKey,
            List.append_nil]
          rw [if_pos (by simpa [List.all_eq_true] using hse)]
      | some nv =>
          rw [hlf] at hsp
          cases nv <;> simp_all [pyAdd, pySet, setKey]
          rename_i xsN
          rw [if_pos ?_]
          intro x hx
          rcases List.mem_append.mp hx with h | h
          · exact hse x h
          · exact hsp x h

theorem mergeRecord_ok {e p : Value} (he : taggedB e = true) (hp : taggedB p = true) :
    ∃ e2, mergeRecord e p = .ok e2 ∧ taggedB e2 = true ∧
      hashStringOf e2 = hashStringOf e ∧
      (patentWF e = true → patentWF e2 = true ∧
        calculate_patent_hash e2 = calculate_patent_hash e) := by
  obtain ⟨kvs, rfl⟩ : ∃ k, e = .vdict k := by
    cases e <;> simp_all [taggedB, isDictB]
  have hse : fieldOkB (.vdict kvs) "source_databases" = true := by
    simpa [taggedB, sourcesOkB, fieldOkB, isDictB] using he
  have hsp : fieldOkB p "source_databases" = true := by
    obtain ⟨kp, rfl⟩ : ∃ k, p = .vdict k := by
      cases p <;> simp_all [taggedB, isDictB]
    simpa [taggedB, sourcesOkB, fieldOkB, isDictB] using hp
  have hsrc : "source_databases" ∉ mergedFields := by simp [mergedFields]
  set inner : Value := .vdict (updAssoc kvs "source_databases"
    (.vlist (dedupFO (fieldElems (.vdict kvs) "source_databases" ++
      fieldElems p "source_databases")))) with hinner
  have hdi : isDictB inner = true := by simp [hinner, isDictB]
  obtain ⟨hdm, hlm⟩ := mergeInfo_preserves (e := inner) (n := p) hdi
    "source_databases" hsrc
  have hsl : dictLookup inner "source_databases" =
      some (.vlist (dedupFO (fieldElems (.vdict kvs) "source_databases" ++
        fieldElems p "source_databases"))) := by
    simp [hinner, dictLookup, lookup_updAssoc_self]
  have hall : ∀ x ∈ dedupFO (fieldElems (.vdict kvs) "source_databases" ++
      fieldElems p "source_databases"), valueHashable x = true := by
    intro x hx
    rcases List.mem_append.mp ((mem_dedupFO _ _).mp hx) with h | h
    · exact fieldOkB_elems hse x h
    · exact fieldOkB_elems hsp x h
  have hpn : dictLookup (merge_patent_info inner p) "patent_number" =
      dictLookup (.vdict kvs) "patent_number" := by
    rw [(mergeInfo_preserves hdi "patent_number" (by simp [mergedFields])).2]
    simp [hinner, dictLookup, lookup_updAssoc_ne _ _ _ _ (by decide : "patent_number" ≠ "source_databases")]
  have hti : dictLookup (merge_patent_info inner p) "title" =
      dictLookup (.vdict kvs) "title" := by
    rw [(mergeInfo_preserves hdi "title" (by simp [mergedFields])).2]
    simp [hinner, dictLookup, lookup_updAssoc_ne _ _ _ _ (by decide : "title" ≠ "source_databases")]
  have hhs : hashStringOf (merge_patent_info inner p) = hashStringOf (.vdict kvs) :=
    hashStringOf_congr hdm (by simp [isDictB]) hpn hti
  refine ⟨merge_patent_info inner p, mergeRecord_spec hse hp, ?_, hhs, ?_⟩
  · simp only [taggedB, hdm, sourcesOkB, hlm, hsl, Bool.true_and]
    simpa [List.all_eq_true] using hall
  · intro hwf
    have hok := patentWF_hashString hwf
    have hwf2 : patentWF (merge_patent_info inner p) = true :=
      hashString_ok_patentWF (s := normalizedNumber (strFieldD (.vdict kvs) "patent_number") ++ "|" ++
        normalizedTitle (strFieldD (.vdict kvs) "title")) (by rw [hhs, hok])
    refine ⟨hwf2, ?_⟩
    rw [calculate_patent_hash, calculate_patent_hash, hhs, hok]


theorem forall2_mem_right {r : Value → Value → Prop} :
    ∀ {l1 l2 : List Value}, List.Forall₂ r l1 l2 → ∀ b ∈ l2, ∃ a ∈ l1, r a b := by
  intro l1 l2 h
  induction h with
  | nil => simp
  | cons hr _ ih =>
      intro b hb
      rcases List.mem_cons.mp hb with rfl | hb
      · exact ⟨_, by simp, hr⟩
      · obtain ⟨a, ha, har⟩ := ih b hb
        exact ⟨a, by simp [ha], har⟩

theorem forall2_mem_left {r : Value → Value → Prop} :
    ∀ {l1 l2 : List Value}, List.Forall₂ r l1 l2 → ∀ a ∈ l1, ∃ b ∈ l2, r a b := by
  intro l1 l2 h
  induction h with
  | nil => simp
  | cons hr _ ih =>
      intro a ha
      rcases List.mem_cons.mp ha with rfl | ha
      · exact ⟨_, by simp, hr⟩
      · obtain ⟨b, hb, hbr⟩ := ih a ha
        exact ⟨b, by simp [hb], hbr⟩

theorem mergeIntoFirst_spec {h : Digest} {p : Value} :
    ∀ {acc : List Value}, (∀ e ∈ acc, taggedB e = true) → taggedB p = true →
    ∃ out, mergeIntoFirst acc h p = .ok out ∧
      List.Forall₂ (fun a b => a = b ∨
        (calculate_patent_hash a = h ∧ mergeRecord a p = .ok b)) acc out := by
  intro acc
  induction acc with
  | nil => intro _ _; exact ⟨[], rfl, List.Forall₂.nil⟩
  | cons e rest ih =>
      intro hacc hp
      by_cases hh : calculate_patent_hash e = h
      · obtain ⟨e2, hm, -, -, -⟩ := mergeRecord_ok (hacc e (by simp)) hp
        refine ⟨e2 :: rest, ?_, ?_⟩
        · simp [mergeIntoFirst, hh, hm, bind, Except.bind]
        · exact List.Forall₂.cons (Or.inr ⟨hh, hm⟩)
            (List.forall₂_same.mpr fun x _ => Or.inl rfl)
      · obtain ⟨out, hout, hfa⟩ := ih (fun q hq => hacc q (by simp [hq])) hp
        refine ⟨e :: out, ?_, List.Forall₂.cons (Or.inl rfl) hfa⟩
        simp [mergeIntoFirst, hh, hout, bind, Except.bind]

theorem mergeRecord_ok_eq {a b p : Value} (ha : taggedB a = true) (hp : taggedB p = true)
    (hm : mergeRecord a p = .ok b) :
    taggedB b = true ∧
    (patentWF a = true → patentWF b = true ∧
      calculate_patent_hash b = calculate_patent_hash a) := by
  obtain ⟨e2, hm2, ht2, -, hc2⟩ := mergeRecord_ok ha hp
  have : e2 = b := by
    have := hm2.symm.trans hm
    exact Except.ok.inj this
  subst this
  exact ⟨ht2, hc2⟩

theorem dedupGo_spec :
    ∀ (ps acc : List Value) (seen : List Digest),
      (∀ p ∈ ps, taggedB p = true) → (∀ q ∈ acc, taggedB q = true) →
      (∀ s, Digest.md5 s ∈ seen → ∃ q ∈ acc, calculate_patent_hash q = .md5 s) →
      ∃ out, dedupGo ps acc seen = .ok out ∧
        out.length ≤ acc.length + ps.length ∧
        (∀ q ∈ out, taggedB q = true) ∧
        (∀ q0 ∈ acc, patentWF q0 = true →
          ∃ q ∈ out, calculate_patent_hash q = calculate_patent_hash q0) ∧
        (∀ p ∈ ps, patentWF p = true →
          ∃ q ∈ out, calculate_patent_hash q = calculate_patent_hash p) := by
  intro ps
  induction ps with
  | nil =>
      intro acc seen _ hacc _
      exact ⟨acc, rfl, by simp, hacc, fun q0 h0 _ => ⟨q0, h0, rfl⟩, by simp⟩
  | cons p ps ih =>
      intro acc seen hps hacc hseen
      have hptag : taggedB p = true := hps p (by simp)
      by_cases hmem : calculate_patent_hash p ∈ seen
      · obtain ⟨acc2, hm, hfa⟩ :=
          mergeIntoFirst_spec (h := calculate_patent_hash p) hacc hptag
        have hacc2 : ∀ q ∈ acc2, taggedB q = true := by
          intro q hq
          obtain ⟨a, ha, har⟩ := forall2_mem_right hfa q hq
          rcases har with rfl | ⟨-, hmr⟩
          · exact hacc a ha
          · exact (mergeRecord_ok_eq (hacc a ha) hptag hmr).1
        have haccHash : ∀ q0 ∈ acc, patentWF q0 = true →
            ∃ q ∈ acc2, calculate_patent_hash q = calculate_patent_hash q0 ∧
              patentWF q = true := by
          intro q0 h0 hwf
          obtain ⟨b, hb, hbr⟩ := forall2_mem_left hfa q0 h0
          rcases hbr with rfl | ⟨-, hmr⟩
          · exact ⟨q0, hb, rfl, hwf⟩
          · obtain ⟨-, hc⟩ := mergeRecord_ok_eq (hacc q0 h0) hptag hmr
            exact ⟨b, hb, (hc hwf).2, (hc hwf).1⟩
        have hseen2 : ∀ s, Digest.md5 s ∈ seen →
            ∃ q ∈ acc2, calculate_patent_hash q = .md5 s := by
          intro s hs
          obtain ⟨a, ha, hah⟩ := hseen s hs
          obtain ⟨q, hq, hqh, -⟩ := haccHash a ha (patentWF_of_md5 hah)
          exact ⟨q, hq, hqh.trans hah⟩
        obtain ⟨out, hout, hlen, htag, haccC, hpsC⟩ :=
          ih acc2 seen (fun q hq => hps q (by simp [hq])) hacc2 hseen2
        have hlen2 : acc2.length = acc.length := hfa.length_eq.symm
        refine ⟨out, ?_, ?_, htag, ?_, ?_⟩
        · simp [dedupGo, hmem, hm, bind, Except.bind, hout]
        · rw [hlen2] at hlen
          simp only [List.length_cons]
          omega
        · intro q0 h0 hwf
          obtain ⟨q, hq, hqh, hwfq⟩ := haccHash q0 h0 hwf
          obtain ⟨q2, hq2, hq2h⟩ := haccC q hq hwfq
          exact ⟨q2, hq2, hq2h.trans hqh⟩
        · intro p2 hp2 hwf2
          rcases List.mem_cons.mp hp2 with rfl | hp2
          · have hmd5 := hash_md5_of_patentWF hwf2
            obtain ⟨a, ha, hah⟩ := hseen _ (hmd5 ▸ hmem)
            obtain ⟨q, hq, hqh, hwfq⟩ := haccHash a ha (patentWF_of_md5 hah)
            obtain ⟨q2, hq2, hq2h⟩ := haccC q hq hwfq
            exact ⟨q2, hq2, by rw [hq2h, hqh, hah, hmd5]⟩
          · exact hpsC p2 hp2 hwf2
      · obtain ⟨out, hout, hlen, htag, haccC, hpsC⟩ :=
          ih (acc ++ [p]) (calculate_patent_hash p :: seen)
            (fun q hq => hps q (by simp [hq]))
            (by
              intro q hq
              rcases List.mem_append.mp hq with h2 | h2
              · exact hacc q h2
              · rw [List.mem_singleton.mp h2]; exact hptag)
            (by
              intro s hs
              rcases List.mem_cons.mp hs with h2 | h2
              · exact ⟨p, by simp, h2.symm⟩
              · obtain ⟨q, hq, hqh⟩ := hseen s h2
                exact ⟨q, by simp [hq], hqh⟩)
        refine ⟨out, by simp [dedupGo, hmem, hout], ?_, htag, ?_, ?_⟩
        · simp only [List.length_append, List.length_singleton, List.length_cons,
            List.length_nil] at hlen ⊢
          omega
        · intro q0 h0 hwf
          exact haccC q0 (by simp [h0]) hwf
        · intro p2 hp2 hwf2
          rcases List.mem_cons.mp hp2 with rfl | hp2
          · exact haccC p2 (by simp) hwf2
          · exact hpsC p2 hp2 hwf2


theorem setKeySources_props {p p2 : Value} {db : String}
    (h : setKey p "source_databases" (.vlist [.vstr db]) = .ok p2) :
    taggedB p2 = true ∧ hashStringOf p2 = hashStringOf p ∧
    (patentWF p = true → patentWF p2 = true ∧
      calculate_patent_hash p2 = calculate_patent_hash p) := by
  cases p with
  | vdict kvs =>
      simp only [setKey] at h
      cases h
      have hpn : dictLookup (Value.vdict (updAssoc kvs "source_databases"
          (.vlist [.vstr db]))) "patent_number" =
          dictLookup (.vdict kvs) "patent_number" := by
        simp only [dictLookup]
        exact lookup_updAssoc_ne _ _ _ _ (by decide)
      have hti : dictLookup (Value.vdict (updAssoc kvs "source_databases"
          (.vlist [.vstr db]))) "title" = dictLookup (.vdict kvs) "title" := by
        simp only [dictLookup]
        exact lookup_updAssoc_ne _ _ _ _ (by decide)
      have hhs := hashStringOf_congr (a := Value.vdict (updAssoc kvs "source_databases"
          (.vlist [.vstr db]))) (b := .vdict kvs) (by simp [isDictB]) (by simp [isDictB])
          hpn hti
      refine ⟨?_, hhs, ?_⟩
      · simp [taggedB, isDictB, sourcesOkB, dictLookup, lookup_updAssoc_self, valueHashable]
      · intro hwf
        have hok := patentWF_hashString hwf
        refine ⟨hashString_ok_patentWF (by rw [hhs, hok]), ?_⟩
        rw [calculate_patent_hash, calculate_patent_hash, hhs, hok]
  | vstr s => simp [setKey] at h
  | vint i => simp [setKey] at h
  | vfloat q => simp [setKey] at h
  | vlist xs => simp [setKey] at h
  | vnone => simp [setKey] at h

theorem tagAll_spec {db : String} : ∀ {items out : List Value},
    tagAll db items = .ok out →
    List.Forall₂ (fun p p2 =>
      setKey p "source_databases" (.vlist [.vstr db]) = .ok p2) items out := by
  intro items
  induction items with
  | nil =>
      intro out h
      simp only [tagAll] at h
      cases h
      exact List.Forall₂.nil
  | cons p ps ih =>
      intro out h
      simp only [tagAll, bind, Except.bind] at h
      cases hk : setKey p "source_databases" (.vlist [.vstr db]) with
      | error e => rw [hk] at h; simp at h
      | ok p2 =>
          rw [hk] at h
          dsimp only at h
          cases hr : tagAll db ps with
          | error e => rw [hr] at h; simp at h
          | ok rest =>
              rw [hr] at h
              dsimp only at h
              cases h
              exact List.Forall₂.cons hk (ih hr)

theorem tagAll_ok (db : String) : ∀ {items : List Value},
    (∀ p ∈ items, isDictB p = true) → ∃ out, tagAll db items = .ok out := by
  intro items
  induction items with
  | nil => intro _; exact ⟨[], rfl⟩
  | cons p ps ih =>
      intro hd
      obtain ⟨kvs, rfl⟩ : ∃ kvs, p = .vdict kvs := by
        have := hd p (by simp)
        cases p <;> simp_all [isDictB]
      obtain ⟨out, hout⟩ := ih fun q hq => hd q (by simp [hq])
      refine ⟨.vdict (updAssoc kvs "source_databases" (.vlist [.vstr db])) :: out, ?_⟩
      simp [tagAll, setKey, bind, Except.bind, hout]

theorem pyIter_len {v : Value} {xs : List Value} (h : pyIter v = .ok xs) :
    pyLen v = .ok xs.length := by
  cases v with
  | vstr s =>
      simp only [pyIter] at h
      cases h
      simp only [pyLen, List.length_map]
      rfl
  | vlist ys =>
      simp only [pyIter] at h
      cases h
      rfl
  | vdict kvs =>
      simp only [pyIter] at h
      cases h
      simp [pyLen, List.length_map]
  | vint n => simp [pyIter] at h
  | vfloat q => simp [pyIter] at h
  | vnone => simp [pyIter] at h


theorem collect_ok_of_WF : ∀ {results : List (String × Value)},
    (∀ e ∈ results, okValueWF e.2 = true) →
    ∃ ps, collectFromEntries results = .ok ps ∧
      ∀ p ∈ ps, taggedB p = true ∧ patentWF p = true := by
  intro results
  induction results with
  | nil => intro _; exact ⟨[], rfl, by simp⟩
  | cons e rest ih =>
      obtain ⟨db, r⟩ := e
      intro hwf
      have hr : okValueWF r = true := hwf (db, r) (by simp)
      obtain ⟨kvs, rfl⟩ : ∃ kvs, r = .vdict kvs := by
        cases r <;> simp_all [okValueWF, isDictB]
      obtain ⟨more, hmore, hmoreP⟩ := ih fun e2 he2 => hwf e2 (by simp [he2])
      simp only [okValueWF, Bool.and_eq_true, isDictB] at hr
      obtain ⟨⟨-, hres⟩, -⟩ := hr
      by_cases hst : ((kvs.lookup "status").getD .vnone) = Value.vstr "completed"
      · -- completed entry: iterate its results
        have hrl : ∃ items : List Value, (kvs.lookup "results").getD (.vlist []) = .vlist items ∧
            ∀ p ∈ items, patentWF p = true := by
          revert hres
          cases hl : kvs.lookup "results" with
          | none => intro _; exact ⟨[], rfl, by simp⟩
          | some v =>
              cases v <;> simp_all [dictLookup, List.all_eq_true]
        obtain ⟨items, hitems, hitemsWF⟩ := hrl
        obtain ⟨here, hhere⟩ := tagAll_ok db fun p hp => by
          have := hitemsWF p hp
          simp only [patentWF, Bool.and_eq_true] at this
          exact this.1.1
        refine ⟨here ++ more, ?_, ?_⟩
        · simp only [collectFromEntries, getVal, bind, Except.bind]
          rw [if_pos hst, hitems]
          simp only [pyIter]
          rw [hhere]
          dsimp only
          rw [hmore]
        · intro p hp
          rcases List.mem_append.mp hp with h2 | h2
          · obtain ⟨p0, hp0, hk⟩ := forall2_mem_right (tagAll_spec hhere) p h2
            obtain ⟨ht, -, hc⟩ := setKeySources_props hk
            exact ⟨ht, (hc (hitemsWF p0 hp0)).1⟩
          · exact hmoreP p h2
      · refine ⟨more, ?_, hmoreP⟩
        simp only [collectFromEntries, getVal, bind, Except.bind]
        rw [if_neg hst]
        simp only [pure, Except.pure]
        rw [hmore]
        rfl

theorem collect_tagged : ∀ {results : List (String × Value)} {ps : List Value},
    collectFromEntries results = .ok ps → ∀ p ∈ ps, taggedB p = true := by
  intro results
  induction results with
  | nil =>
      intro ps h
      simp only [collectFromEntries] at h
      cases h
      simp
  | cons e rest ih =>
      obtain ⟨db, r⟩ := e
      intro ps h
      simp only [collectFromEntries, bind, Except.bind] at h
      cases hst : getVal r "status" .vnone with
      | error e2 => rw [hst] at h; simp at h
      | ok st =>
          rw [hst] at h
          dsimp only at h
          by_cases hc : st = Value.vstr "completed"
          · rw [if_pos hc] at h
            cases hres : getVal r "results" (.vlist []) with
            | error e2 => rw [hres] at h; simp at h
            | ok rs =>
                rw [hres] at h
                dsimp only at h
                cases hit : pyIter rs with
                | error e2 => rw [hit] at h; simp at h
                | ok items =>
                    rw [hit] at h
                    dsimp only at h
                    cases htag : tagAll db items with
                    | error e2 => rw [htag] at h; simp at h
                    | ok here =>
                        rw [htag] at h
                        dsimp only at h
                        cases hmore : collectFromEntries rest with
                        | error e2 => rw [hmore] at h; simp at h
                        | ok more =>
                            rw [hmore] at h
                            dsimp only at h
                            cases h
                            intro p hp
                            rcases List.mem_append.mp hp with h2 | h2
                            · obtain ⟨p0, hp0, hk⟩ :=
                                forall2_mem_right (tagAll_spec htag) p h2
                              exact (setKeySources_props hk).1
                            · exact ih hmore p h2
          · rw [if_neg hc] at h
            simp only [pure, Except.pure] at h
            cases hmore : collectFromEntries rest with
            | error e2 => rw [hmore] at h; simp at h
            | ok more =>
                rw [hmore] at h
                dsimp only at h
                cases h
                intro p hp
                simp only [List.nil_append] at hp
                exact ih hmore p hp


theorem collect_mem : ∀ {results : List (String × Value)} {ps : List Value}
    {db : String} {r : Value} {items : List Value} {p : Value},
    collectFromEntries results = .ok ps → (db, r) ∈ results →
    dictLookup r "status" = some (.vstr "completed") →
    dictLookup r "results" = some (.vlist items) → p ∈ items → patentWF p = true →
    ∃ p2 ∈ ps, calculate_patent_hash p2 = calculate_patent_hash p ∧
      patentWF p2 = true ∧ taggedB p2 = true := by
  intro results
  induction results with
  | nil => intro ps db r items p _ hmem; simp at hmem
  | cons e rest ih =>
      obtain ⟨db2, r2⟩ := e
      intro ps db r items p h hmem hstat hresults hp hwf
      simp only [collectFromEntries, bind, Except.bind] at h
      cases hst : getVal r2 "status" .vnone with
      | error e2 => rw [hst] at h; simp at h
      | ok st =>
          rw [hst] at h
          dsimp only at h
          by_cases hc : st = Value.vstr "completed"
          · rw [if_pos hc] at h
            cases hres : getVal r2 "results" (.vlist []) with
            | error e2 => rw [hres] at h; simp at h
            | ok rs =>
                rw [hres] at h
                dsimp only at h
                cases hit : pyIter rs with
                | error e2 => rw [hit] at h; simp at h
                | ok items2 =>
                    rw [hit] at h
                    dsimp only at h
                    cases htag : tagAll db2 items2 with
                    | error e2 => rw [htag] at h; simp at h
                    | ok here =>
                        rw [htag] at h
                        dsimp only at h
                        cases hmore : collectFromEntries rest with
                        | error e2 => rw [hmore] at h; simp at h
                        | ok more =>
                            rw [hmore] at h
                            dsimp only at h
                            cases h
                            rcases List.mem_cons.mp hmem with heq | hmem2
                            · -- the entry itself
                              obtain ⟨heq1, heq2⟩ := Prod.mk.injEq .. ▸ heq
                              subst heq1
                              subst heq2
                              obtain ⟨kvs, rfl⟩ : ∃ kvs, r = .vdict kvs := by
                                cases r <;> simp_all [dictLookup]
                              simp only [dictLookup] at hresults
                              simp only [getVal, hresults, Option.getD_some] at hres
                              cases hres
                              simp only [pyIter] at hit
                              cases hit
                              obtain ⟨p2, hp2, hk⟩ :=
                                forall2_mem_left (tagAll_spec htag) p hp
                              obtain ⟨ht, -, hcp⟩ := setKeySources_props hk
                              exact ⟨p2, List.mem_append_left _ hp2,
                                (hcp hwf).2, (hcp hwf).1, ht⟩
                            · obtain ⟨p2, hp2, hh, hw, ht⟩ :=
                                ih hmore hmem2 hstat hresults hp hwf
                              exact ⟨p2, List.mem_append_right _ hp2, hh, hw, ht⟩
          · rw [if_neg hc] at h
            simp only [pure, Except.pure] at h
            cases hmore : collectFromEntries rest with
            | error e2 => rw [hmore] at h; simp at h
            | ok more =>
                rw [hmore] at h
                dsimp only at h
                cases h
                rcases List.mem_cons.mp hmem with heq | hmem2
                · obtain ⟨heq1, heq2⟩ := Prod.mk.injEq .. ▸ heq
                  subst heq1
                  subst heq2
                  obtain ⟨kvs, rfl⟩ : ∃ kvs, r = .vdict kvs := by
                    cases r <;> simp_all [dictLookup]
                  simp only [dictLookup] at hstat
                  simp only [getVal, hstat, Option.getD_some] at hst
                  cases hst
                  exact absurd rfl hc
                · obtain ⟨p2, hp2, hh, hw, ht⟩ :=
                    ih hmore hmem2 hstat hresults hp hwf
                  refine ⟨p2, ?_, hh, hw, ht⟩
                  simpa using hp2

theorem collect_len : ∀ {results : List (String × Value)} {ps : List Value} {o : Nat},
    collectFromEntries results = .ok ps → totalOriginal results = .ok o →
    ps.length ≤ o := by
  intro results
  induction results with
  | nil =>
      intro ps o h ho
      simp only [collectFromEntries] at h
      simp only [totalOriginal] at ho
      cases h
      cases ho
      simp
  | cons e rest ih =>
      obtain ⟨db2, r2⟩ := e
      intro ps o h ho
      simp only [collectFromEntries, bind, Except.bind] at h
      simp only [totalOriginal, bind, Except.bind] at ho
      cases hres : getVal r2 "results" (.vlist []) with
      | error e2 => rw [hres] at ho; simp at ho
      | ok rs =>
          rw [hres] at ho
          dsimp only at ho
          cases hlen : pyLen rs with
          | error e2 => rw [hlen] at ho; simp at ho
          | ok n =>
              rw [hlen] at ho
              dsimp only at ho
              cases hto : totalOriginal rest with
              | error e2 => rw [hto] at ho; simp at ho
              | ok m =>
                  rw [hto] at ho
                  dsimp only at ho
                  cases ho
                  cases hst : getVal r2 "status" .vnone with
                  | error e2 => rw [hst] at h; simp at h
                  | ok st =>
                      rw [hst] at h
                      dsimp only at h
                      by_cases hc : st = Value.vstr "completed"
                      · rw [if_pos hc, hres] at h
                        dsimp only at h
                        cases hit : pyIter rs with
                        | error e2 => rw [hit] at h; simp at h
                        | ok items2 =>
                            rw [hit] at h
                            dsimp only at h
                            cases htag : tagAll db2 items2 with
                            | error e2 => rw [htag] at h; simp at h
                            | ok here =>
                                rw [htag] at h
                                dsimp only at h
                                cases hmore : collectFromEntries rest with
                                | error e2 => rw [hmore] at h; simp at h
                                | ok more =>
                                    rw [hmore] at h
                                    dsimp only at h
                                    cases h
                                    have h1 : here.length = items2.length :=
                                      (tagAll_spec htag).length_eq.symm
                                    have h2 : n = items2.length := by
                                      have := pyIter_len hit
                                      rw [hlen] at this
                                      exact Except.ok.inj this
                                    have h3 : more.length ≤ m := ih hmore hto
                                    simp only [List.length_append, h1, h2]
                                    omega
                      · rw [if_neg hc] at h
                        simp only [pure, Except.pure] at h
                        cases hmore : collectFromEntries rest with
                        | error e2 => rw [hmore] at h; simp at h
                        | ok more =>
                            rw [hmore] at h
                            dsimp only at h
                            cases h
                            have h3 : more.length ≤ m := ih hmore hto
                            simp only [List.nil_append]
                            omega


theorem dedup_of_tagged {ps : List Value} (hps : ∀ p ∈ ps, taggedB p = true) :
    ∃ out, dedupGo ps [] [] = .ok out ∧ deduplicate_patents ps = out ∧
      out.length ≤ ps.length ∧ (∀ q ∈ out, taggedB q = true) ∧
      (∀ p ∈ ps, patentWF p = true →
        ∃ q ∈ out, calculate_patent_hash q = calculate_patent_hash p) := by
  obtain ⟨out, hout, hlen, htag, -, hpsC⟩ :=
    dedupGo_spec ps [] [] hps (by simp) (by simp)
  refine ⟨out, hout, ?_, by simpa using hlen, htag, hpsC⟩
  by_cases hnil : ps = []
  · subst hnil
    simp only [dedupGo] at hout
    cases hout
    simp [deduplicate_patents]
  · simp [deduplicate_patents, hnil, hout]

/-- C6.  Merge failure degrades to an empty list and never escapes: for
every per-database result map, the merge/deduplication step either raised
internally and returned the empty merged list, or no exception occurred
anywhere in it (collection and the whole dedup loop succeeded and produced
the returned list).  In particular an exception can never yield a partial
or propagated failure.  Totality of `merge_and_deduplicate_results` is the
model of "never crashes the run". -/
theorem C6_merge_failure_degrades (results : List (String × Value)) :
    merge_and_deduplicate_results results = [] ∨
    ∃ ps, collectFromEntries results = .ok ps ∧
      dedupGo ps [] [] = .ok (merge_and_deduplicate_results results) := by
  cases hc : collectFromEntries results with
  | error e => left; simp [merge_and_deduplicate_results, hc]
  | ok ps =>
      right
      obtain ⟨out, hout, hdd, -, -, -⟩ := dedup_of_tagged (collect_tagged hc)
      exact ⟨ps, rfl, by simp [merge_and_deduplicate_results, hc, hdd, hout]⟩

/-- C8.  The deduplication ratio of a run: for every per-database result
map, with `merged` the engine's merged list, the ratio is `0` when the
original total is `0` (no division by zero — and also `0` when the total
itself cannot be computed, the function's own exception handler), equals
`(o - m) / o` when the total `o` is positive, and always lies in `[0, 1]`. -/
theorem C8_dedup_ratio_bounds (results : List (String × Value)) :
    0 ≤ calculate_dedup_ratio results (merge_and_deduplicate_results results) ∧
    calculate_dedup_ratio results (merge_and_deduplicate_results results) ≤ 1 ∧
    (totalOriginal results = .ok 0 →
      calculate_dedup_ratio results (merge_and_deduplicate_results results) = 0) ∧
    (∀ o : Nat, totalOriginal results = .ok o → 0 < o →
      calculate_dedup_ratio results (merge_and_deduplicate_results results) =
        ((o : ℚ) - ((merge_and_deduplicate_results results).length : ℚ)) / (o : ℚ)) := by
  cases hto : totalOriginal results with
  | error e =>
      simp [calculate_dedup_ratio, hto]
  | ok o =>
      have hm : (merge_and_deduplicate_results results).length ≤ o := by
        cases hc : collectFromEntries results with
        | error e2 => simp [merge_and_deduplicate_results, hc]
        | ok ps =>
            obtain ⟨out, -, hdd, hlen, -, -⟩ := dedup_of_tagged (collect_tagged hc)
            have := collect_len hc hto
            simp only [merge_and_deduplicate_results, hc, hdd]
            omega
      by_cases ho : o = 0
      · subst ho
        simp [calculate_dedup_ratio, hto]
      · have hopos : 0 < o := Nat.pos_of_ne_zero ho
        have hoQ : (0 : ℚ) < (o : ℚ) := by exact_mod_cast hopos
        have hmQ : ((merge_and_deduplicate_results results).length : ℚ) ≤ (o : ℚ) := by
          exact_mod_cast hm
        constructor
        · simp only [calculate_dedup_ratio, hto, if_neg ho]
          apply div_nonneg _ (le_of_lt hoQ)
          linarith
        constructor
        · simp only [calculate_dedup_ratio, hto, if_neg ho]
          rw [div_le_one hoQ]
          have : (0 : ℚ) ≤ ((merge_and_deduplicate_results results).length : ℚ) := by
            positivity
          linarith
        constructor
        · intro h0
          exact absurd (Except.ok.inj h0) ho
        · intro o2 ho2 hpos
          have : o2 = o := (Except.ok.inj ho2).symm
          subst this
          simp [calculate_dedup_ratio, hto, if_neg ho]


theorem failedEntry_WF (msg : String) : okValueWF (failedEntry msg) = true := by
  simp [failedEntry, okValueWF, dictLookup, isDictB, List.lookup]

theorem gatherDownloaded_ok : ∀ {results : List (String × Value)},
    (∀ e ∈ results, okValueWF e.2 = true) →
    ∃ out, gatherDownloaded results = .ok out := by
  intro results
  induction results with
  | nil => intro _; exact ⟨[], rfl⟩
  | cons e rest ih =>
      obtain ⟨db, r⟩ := e
      intro hwf
      have hr : okValueWF r = true := hwf (db, r) (by simp)
      obtain ⟨kvs, rfl⟩ : ∃ kvs, r = .vdict kvs := by
        cases r <;> simp_all [okValueWF, isDictB]
      obtain ⟨more, hmore⟩ := ih fun e2 he2 => hwf e2 (by simp [he2])
      simp only [okValueWF, Bool.and_eq_true, isDictB] at hr
      obtain ⟨-, hdl⟩ := hr
      have : ∃ fs : List Value, (kvs.lookup "downloaded_files").getD (.vlist []) = .vlist fs := by
        revert hdl
        cases hl : kvs.lookup "downloaded_files" with
        | none => intro _; exact ⟨[], rfl⟩
        | some v => cases v <;> simp_all [dictLookup]
      obtain ⟨fs, hfs⟩ := this
      refine ⟨fs ++ more, ?_⟩
      simp only [gatherDownloaded, getVal, bind, Except.bind, hfs, pyIter]
      rw [hmore]

theorem totalFoundByDb_ok : ∀ {results : List (String × Value)},
    (∀ e ∈ results, okValueWF e.2 = true) →
    ∃ out, totalFoundByDb results = .ok out := by
  intro results
  induction results with
  | nil => intro _; exact ⟨[], rfl⟩
  | cons e rest ih =>
      obtain ⟨db, r⟩ := e
      intro hwf
      have hr : okValueWF r = true := hwf (db, r) (by simp)
      obtain ⟨kvs, rfl⟩ : ∃ kvs, r = .vdict kvs := by
        cases r <;> simp_all [okValueWF, isDictB]
      obtain ⟨more, hmore⟩ := ih fun e2 he2 => hwf e2 (by simp [he2])
      simp only [okValueWF, Bool.and_eq_true, isDictB] at hr
      obtain ⟨⟨-, hres⟩, -⟩ := hr
      have : ∃ rs : List Value, (kvs.lookup "results").getD (.vlist []) = .vlist rs := by
        revert hres
        cases hl : kvs.lookup "results" with
        | none => intro _; exact ⟨[], rfl⟩
        | some v => cases v <;> simp_all [dictLookup]
      obtain ⟨rs, hrs⟩ := this
      refine ⟨(db, Value.vint rs.length) :: more, ?_⟩
      simp only [totalFoundByDb, getVal, bind, Except.bind, hrs, pyLen]
      rw [hmore]

theorem totalOriginal_ok : ∀ {results : List (String × Value)},
    (∀ e ∈ results, okValueWF e.2 = true) →
    ∃ o, totalOriginal results = .ok o := by
  intro results
  induction results with
  | nil => intro _; exact ⟨0, rfl⟩
  | cons e rest ih =>
      obtain ⟨db, r⟩ := e
      intro hwf
      have hr : okValueWF r = true := hwf (db, r) (by simp)
      obtain ⟨kvs, rfl⟩ : ∃ kvs, r = .vdict kvs := by
        cases r <;> simp_all [okValueWF, isDictB]
      obtain ⟨m, hm⟩ := ih fun e2 he2 => hwf e2 (by simp [he2])
      simp only [okValueWF, Bool.and_eq_true, isDictB] at hr
      obtain ⟨⟨-, hres⟩, -⟩ := hr
      have : ∃ rs : List Value, (kvs.lookup "results").getD (.vlist []) = .vlist rs := by
        revert hres
        cases hl : kvs.lookup "results" with
        | none => intro _; exact ⟨[], rfl⟩
        | some v => cases v <;> simp_all [dictLookup]
      obtain ⟨rs, hrs⟩ := this
      refine ⟨rs.length + m, ?_⟩
      simp only [totalOriginal, getVal, bind, Except.bind, hrs, pyLen]
      rw [hm]

theorem smd_summary_of_WF {behavior : String → Except String Value}
    {dbs : List String} {par : Bool} {results : List (String × Value)}
    (hs : resultsMapOf behavior dbs par = .ok results)
    (hwf : ∀ e ∈ results, okValueWF e.2 = true) :
    dictLookup (search_multiple_databases behavior dbs par) "status" =
      some (.vstr "completed") ∧
    dictLookup (search_multiple_databases behavior dbs par) "results_by_database" =
      some (.vdict results) ∧
    dictLookup (search_multiple_databases behavior dbs par) "results" =
      some (.vlist (merge_and_deduplicate_results results)) := by
  obtain ⟨files, hfiles⟩ := gatherDownloaded_ok hwf
  obtain ⟨byDb, hbyDb⟩ := totalFoundByDb_ok hwf
  obtain ⟨total, htotal⟩ := totalOriginal_ok hwf
  have hsum : search_multiple_databases behavior dbs par = Value.vdict
      [("status", .vstr "completed"),
       ("databases_searched", .vlist (dbs.map .vstr)),
       ("total_found_by_db", .vdict byDb),
       ("total_found", .vint total),
       ("merged_count", .vint (merge_and_deduplicate_results results).length),
       ("deduplication_ratio", .vfloat (calculate_dedup_ratio results
          (merge_and_deduplicate_results results))),
       ("results", .vlist (merge_and_deduplicate_results results)),
       ("results_by_database", .vdict results),
       ("downloaded_files", .vlist files)] := by
    simp only [search_multiple_databases, bind, Except.bind, hs]
    rw [hfiles]
    dsimp only
    rw [hbyDb]
    dsimp only
    rw [htotal]
    rfl
  rw [hsum]
  refine ⟨?_, ?_, ?_⟩
  · simp only [dictLookup]
    rw [lookup_cons_self]
  · simp only [dictLookup]
    rw [lookup_cons_ne _ _ (by decide), lookup_cons_ne _ _ (by decide),
      lookup_cons_ne _ _ (by decide), lookup_cons_ne _ _ (by decide),
      lookup_cons_ne _ _ (by decide), lookup_cons_ne _ _ (by decide),
      lookup_cons_ne _ _ (by decide), lookup_cons_self]
  · simp only [dictLookup]
    rw [lookup_cons_ne _ _ (by decide), lookup_cons_ne _ _ (by decide),
      lookup_cons_ne _ _ (by decide), lookup_cons_ne _ _ (by decide),
      lookup_cons_ne _ _ (by decide), lookup_cons_ne _ _ (by decide),
      lookup_cons_self]


theorem seq_lookup (behavior : String → Except String Value) (dbs : List String)
    (db : String) (hmem : db ∈ dbs) :
    (search_sequential behavior dbs).lookup db = some (entryFor behavior db) := by
  simp only [search_sequential]
  rw [lookup_buildMap]
  simp [hmem]

theorem par_map {behavior : String → Except String Value} {dbs : List String}
    {m : List (String × Value)} (h : search_parallel behavior dbs = .ok m) :
    m = buildMap (parEntry behavior) (dbs.filter fun d => decide (d ∈ bots)) := by
  simp only [search_parallel] at h
  by_cases hl : dbs.length = 0
  · rw [if_pos hl] at h; simp at h
  · rw [if_neg hl] at h; exact (Except.ok.inj h).symm

theorem entryFor_WF {behavior : String → Except String Value}
    (hbe : behaviorWF behavior) (db : String) : okValueWF (entryFor behavior db) = true := by
  simp only [entryFor]
  by_cases hreg : db ∈ bots
  · rw [if_pos hreg]
    cases hb : behavior db with
    | ok r => exact hbe db r hb
    | error e => exact failedEntry_WF e
  · rw [if_neg hreg]
    exact failedEntry_WF unsupportedMsg

theorem parEntry_WF {behavior : String → Except String Value}
    (hbe : behaviorWF behavior) (db : String) : okValueWF (parEntry behavior db) = true := by
  simp only [parEntry]
  cases hb : behavior db with
  | ok r => exact hbe db r hb
  | error e => exact failedEntry_WF e

theorem resultsMapOf_WF {behavior : String → Except String Value}
    {dbs : List String} {par : Bool} {results : List (String × Value)}
    (hbe : behaviorWF behavior) (hs : resultsMapOf behavior dbs par = .ok results) :
    ∀ e ∈ results, okValueWF e.2 = true := by
  intro e he
  cases par with
  | false =>
      simp only [resultsMapOf, if_neg (by simp : ¬ (false = true))] at hs
      have hm : e ∈ search_sequential behavior dbs := by
        rw [Except.ok.inj hs]; exact he
      simp only [search_sequential] at hm
      rw [mem_buildMap hm]
      exact entryFor_WF hbe e.1
  | true =>
      simp only [resultsMapOf, if_pos rfl] at hs
      have := par_map hs
      subst this
      rw [mem_buildMap he]
      exact parEntry_WF hbe e.1

theorem resultsMapOf_seq (behavior : String → Except String Value) (dbs : List String) :
    resultsMapOf behavior dbs false = .ok (search_sequential behavior dbs) := rfl

theorem resultsMapOf_par_ok {behavior : String → Except String Value}
    {dbs : List String} (h : dbs ≠ []) :
    resultsMapOf behavior dbs true =
      .ok (buildMap (parEntry behavior) (dbs.filter fun d => decide (d ∈ bots))) := by
  have hl : ¬ dbs.length = 0 := by simpa [List.length_eq_zero] using h
  have h0 : resultsMapOf behavior dbs true = search_parallel behavior dbs := rfl
  rw [h0]
  simp only [search_parallel]
  rw [if_neg hl]


/-- C1 (amended).  An unregistered database id never aborts the run, and in
*sequential* mode it is recorded as a failed entry with the "unsupported
database" message (`"不支援的資料庫"`) and zero records; but in *parallel*
mode the id is only logged and receives *no* entry in the per-database
result map (the map then has fewer entries than requested ids).  In both
modes the run still completes. -/
theorem C1_unsupported_database (behavior : String → Except String Value)
    (dbs : List String) (db : String) (hbe : behaviorWF behavior)
    (hmem : db ∈ dbs) (hreg : db ∉ bots) :
    (search_sequential behavior dbs).lookup db = some (failedEntry unsupportedMsg) ∧
    dictLookup (failedEntry unsupportedMsg) "status" = some (.vstr "failed") ∧
    dictLookup (failedEntry unsupportedMsg) "error" = some (.vstr unsupportedMsg) ∧
    dictLookup (failedEntry unsupportedMsg) "results" = some (.vlist []) ∧
    (∀ m, search_parallel behavior dbs = .ok m → m.lookup db = none) ∧
    (∀ par, dictLookup (search_multiple_databases behavior dbs par) "status" =
      some (.vstr "completed")) := by
  refine ⟨?_, by simp [failedEntry, dictLookup, List.lookup], ?_, ?_, ?_, ?_⟩
  · rw [seq_lookup behavior dbs db hmem]
    simp [entryFor, hreg]
  · simp [failedEntry, dictLookup, List.lookup]
  · simp [failedEntry, dictLookup, List.lookup]
  · intro m hm
    rw [par_map hm, lookup_buildMap]
    rw [if_neg]
    simp only [List.mem_filter]
    rintro ⟨-, habs⟩
    exact hreg (by simpa using habs)
  · intro par
    cases par with
    | false =>
        exact (smd_summary_of_WF (resultsMapOf_seq behavior dbs)
          (resultsMapOf_WF hbe (resultsMapOf_seq behavior dbs))).1
    | true =>
        have hne : dbs ≠ [] := fun h => by simp [h] at hmem
        exact (smd_summary_of_WF (resultsMapOf_par_ok hne)
          (resultsMapOf_WF hbe (resultsMapOf_par_ok hne))).1

/-- C1 (counterexample).  In parallel mode with registered `"twpat"` and
unregistered `"zzz"` requested, the per-database result map has a single
entry: there is no entry at all for `"zzz"`, contradicting the claim that
the map contains a failed entry per requested id in both modes. -/
theorem C1_counterexample :
    search_parallel behavior0 ["twpat", "zzz"] = .ok [("twpat", emptyCompleted)] ∧
    (List.lookup "zzz" [("twpat", emptyCompleted)] : Option Value) = none ∧
    "zzz" ∈ ["twpat", "zzz"] ∧ "zzz" ∉ bots := by
  refine ⟨rfl, rfl, by decide, by decide⟩

/-- C1/C7 witness helper fact: `behavior0` is a well-formed backend map. -/
theorem behavior0_WF : behaviorWF behavior0 := by
  intro db r h
  cases h
  decide

/-- C1 (witness). -/
theorem C1_witness :
    (search_sequential behavior0 ["twpat", "zzz"]).lookup "zzz" =
      some (failedEntry unsupportedMsg) ∧
    dictLookup (search_multiple_databases behavior0 ["twpat", "zzz"] true) "status" =
      some (.vstr "completed") := by
  have h := C1_unsupported_database behavior0 ["twpat", "zzz"] "zzz"
    behavior0_WF (by decide) (by decide)
  exact ⟨h.1, h.2.2.2.2.2 true⟩

/-- C2 (amended).  For the empty list of target databases the *sequential*
mode returns the completed summary with zero totals, empty merged list,
ratio `0.0` and empty per-database map; the *parallel* mode instead raises
`ValueError` inside `ThreadPoolExecutor(max_workers=0)` and therefore
returns the `status: "failed"` summary (with that error message and zero
counts), not a completed one. -/
theorem C2_empty_databases (behavior : String → Except String Value) :
    search_multiple_databases behavior [] false = .vdict
      [("status", .vstr "completed"),
       ("databases_searched", .vlist []),
       ("total_found_by_db", .vdict []),
       ("total_found", .vint 0),
       ("merged_count", .vint 0),
       ("deduplication_ratio", .vfloat 0),
       ("results", .vlist []),
       ("results_by_database", .vdict []),
       ("downloaded_files", .vlist [])] ∧
    search_multiple_databases behavior [] true = .vdict
      [("status", .vstr "failed"),
       ("error", .vstr "max_workers must be greater than 0"),
       ("databases_searched", .vlist []),
       ("total_found", .vint 0),
       ("merged_count", .vint 0),
       ("results", .vlist []),
       ("downloaded_files", .vlist [])] := ⟨rfl, rfl⟩

/-- C2 (counterexample).  In parallel mode the empty database list does not
yield a completed result: `ThreadPoolExecutor` rejects `max_workers=0`, the
exception escapes to the top-level handler, and the returned summary has
`status = "failed"` (and no `deduplication_ratio` field at all). -/
theorem C2_counterexample :
    dictLookup (search_multiple_databases behavior0 [] true) "status" =
      some (.vstr "failed") ∧
    dictLookup (search_multiple_databases behavior0 [] true) "error" =
      some (.vstr "max_workers must be greater than 0") ∧
    dictLookup (search_multiple_databases behavior0 [] true) "deduplication_ratio" =
      none := by
  refine ⟨rfl, rfl, rfl⟩


/-- C7.  A raising backend call is caught at its unit boundary, in both
modes: the erroring database gets a `status: "failed"` entry carrying the
exception message, every other registered database's successful result is
stored untouched in the map, the overall summary status is `"completed"`,
and every record of a sibling completed backend still reaches the merged
list (as the record, possibly merged, with its fingerprint). -/
theorem C7_backend_error_isolated (behavior : String → Except String Value)
    (dbs : List String) (db : String) (msg : String)
    (hbe : behaviorWF behavior) (hmem : db ∈ dbs) (hreg : db ∈ bots)
    (herr : behavior db = .error msg) :
    (search_sequential behavior dbs).lookup db = some (failedEntry msg) ∧
    (∀ m, search_parallel behavior dbs = .ok m → m.lookup db = some (failedEntry msg)) ∧
    (∀ db2 r, db2 ∈ dbs → db2 ∈ bots → behavior db2 = .ok r →
      (search_sequential behavior dbs).lookup db2 = some r ∧
      (∀ m, search_parallel behavior dbs = .ok m → m.lookup db2 = some r)) ∧
    (∀ par, dictLookup (search_multiple_databases behavior dbs par) "status" =
      some (.vstr "completed")) ∧
    (∀ par results db2 r ps2 p, resultsMapOf behavior dbs par = .ok results →
      db2 ∈ dbs → db2 ∈ bots → behavior db2 = .ok r →
      dictLookup r "status" = some (.vstr "completed") →
      dictLookup r "results" = some (.vlist ps2) → p ∈ ps2 →
      ∃ q ∈ merge_and_deduplicate_results results,
        calculate_patent_hash q = calculate_patent_hash p) := by
  have hne : dbs ≠ [] := fun h => by simp [h] at hmem
  refine ⟨?_, ?_, ?_, ?_, ?_⟩
  · rw [seq_lookup behavior dbs db hmem]
    simp [entryFor, hreg, herr]
  · intro m hm
    rw [par_map hm, lookup_buildMap]
    rw [if_pos (by simp [List.mem_filter, hmem, hreg])]
    simp [parEntry, herr]
  · intro db2 r hmem2 hreg2 hok
    constructor
    · rw [seq_lookup behavior dbs db2 hmem2]
      simp [entryFor, hreg2, hok]
    · intro m hm
      rw [par_map hm, lookup_buildMap]
      rw [if_pos (by simp [List.mem_filter, hmem2, hreg2])]
      simp [parEntry, hok]
  · intro par
    cases par with
    | false =>
        exact (smd_summary_of_WF (resultsMapOf_seq behavior dbs)
          (resultsMapOf_WF hbe (resultsMapOf_seq behavior dbs))).1
    | true =>
        exact (smd_summary_of_WF (resultsMapOf_par_ok hne)
          (resultsMapOf_WF hbe (resultsMapOf_par_ok hne))).1
  · intro par results db2 r ps2 p hs hmem2 hreg2 hok hstat hres hp
    have hwfE : ∀ e ∈ results, okValueWF e.2 = true := resultsMapOf_WF hbe hs
    have hlook : results.lookup db2 = some r := by
      cases par with
      | false =>
          have : results = search_sequential behavior dbs :=
            Except.ok.inj (hs.symm.trans (resultsMapOf_seq behavior dbs))
          subst this
          rw [seq_lookup behavior dbs db2 hmem2]
          simp [entryFor, hreg2, hok]
      | true =>
          have : results = buildMap (parEntry behavior)
              (dbs.filter fun d => decide (d ∈ bots)) :=
            Except.ok.inj (hs.symm.trans (resultsMapOf_par_ok hne))
          subst this
          rw [lookup_buildMap]
          rw [if_pos (by simp [List.mem_filter, hmem2, hreg2])]
          simp [parEntry, hok]
    have hmemE : (db2, r) ∈ results := lookup_mem hlook
    have hpwf : patentWF p = true := by
      have hr := hwfE (db2, r) hmemE
      obtain ⟨kvs, rfl⟩ : ∃ kvs, r = .vdict kvs := by
        cases r <;> simp_all [okValueWF, isDictB]
      simp only [okValueWF, Bool.and_eq_true] at hr
      obtain ⟨⟨-, hresWF⟩, -⟩ := hr
      rw [hres] at hresWF
      simp only [List.all_eq_true] at hresWF
      exact hresWF p hp
    obtain ⟨ps, hcollect, -⟩ := collect_ok_of_WF hwfE
    obtain ⟨p2, hp2mem, hp2hash, hp2wf, -⟩ :=
      collect_mem hcollect hmemE hstat hres hp hpwf
    obtain ⟨out, -, hdd, -, -, hpsC⟩ := dedup_of_tagged (collect_tagged hcollect)
    obtain ⟨q, hq, hqh⟩ := hpsC p2 hp2mem hp2wf
    have hmerged : merge_and_deduplicate_results results = out := by
      simp [merge_and_deduplicate_results, hcollect, hdd]
    rw [hmerged]
    exact ⟨q, hq, hqh.trans hp2hash⟩


/-- C7 (witness). -/
theorem C7_witness :
    behaviorWF behavior7 ∧
    (search_sequential behavior7 ["twpat", "uspto"]).lookup "twpat" =
      some (failedEntry "boom") ∧
    dictLookup (search_multiple_databases behavior7 ["twpat", "uspto"] true) "status" =
      some (.vstr "completed") ∧
    ∃ q ∈ merge_and_deduplicate_results (search_sequential behavior7 ["twpat", "uspto"]),
      calculate_patent_hash q = calculate_patent_hash recA := by
  have hbe : behaviorWF behavior7 := by
    intro db r h
    simp only [behavior7] at h
    split at h
    · simp at h
    · cases h
      decide
  have h := C7_backend_error_isolated behavior7 ["twpat", "uspto"] "twpat" "boom"
    hbe (by decide) (by decide) (by simp [behavior7])
  refine ⟨hbe, h.1, h.2.2.2.1 true, ?_⟩
  exact h.2.2.2.2 false (search_sequential behavior7 ["twpat", "uspto"]) "uspto"
    okResult7 [recA] recA rfl (by decide) (by decide) (by simp [behavior7])
    (by decide) (by decide) (by decide)

/-- C8 (witness). -/
theorem C8_witness :
    0 ≤ calculate_dedup_ratio resultsW (merge_and_deduplicate_results resultsW) ∧
    calculate_dedup_ratio resultsW (merge_and_deduplicate_results resultsW) ≤ 1 ∧
    calculate_dedup_ratio resultsW (merge_and_deduplicate_results resultsW) =
      ((2 : ℚ) - 1) / 2 := by
  have h := C8_dedup_ratio_bounds resultsW
  refine ⟨h.1, h.2.1, ?_⟩
  have hto : totalOriginal resultsW = .ok 2 := rfl
  have h2 := h.2.2.2 2 hto (by norm_num)
  have hlen : (merge_and_deduplicate_results resultsW).length = 1 := by decide
  rw [h2, hlen]
  norm_num


/-- C3 (amended).  The fingerprint is the MD5 digest of
`normalizedNumber(patent_number) + "|" + normalizedTitle(title)`, where the
number normalisation is: strip surrounding whitespace, uppercase, then
remove *every* occurrence of the substrings `"US"` and `"TW"` and of the
characters `"-"` and `" "` (not only leading country-code prefixes; other
non-alphanumeric characters are kept), and the title normalisation is
strip + lowercase. -/
theorem C3_hash_normalization (kvs : List (String × Value)) (pn t : String)
    (hpn : kvs.lookup "patent_number" = some (.vstr pn))
    (ht : kvs.lookup "title" = some (.vstr t)) :
    calculate_patent_hash (.vdict kvs) =
      .md5 (normalizedNumber pn ++ "|" ++ normalizedTitle t) := by
  have hwf : patentWF (.vdict kvs) = true := by
    simp [patentWF, isDictB, strOrMissing, dictLookup, hpn, ht]
  rw [hash_md5_of_patentWF hwf]
  simp [strFieldD, dictLookup, hpn, ht]

/-- C3 (witness). -/
theorem C3_witness :
    calculate_patent_hash (.vdict [("patent_number", .vstr " us-12 34 "),
      ("title", .vstr " The Widget ")]) = .md5 ("1234" ++ "|" ++ "the widget") := by
  have h := C3_hash_normalization
    [("patent_number", .vstr " us-12 34 "), ("title", .vstr " The Widget ")]
    " us-12 34 " " The Widget " rfl (by decide)
  rw [h]
  decide

/-- C3 (counterexample).  The code strips `"US"`/`"TW"` *everywhere* in the
number and keeps other non-alphanumeric characters, so the claimed
normalisation (strip all non-alphanumerics, then drop only a leading
country code) computes a different digest input on `"1US2"` (inner
occurrence) and on `"A.1"` (kept dot). -/
theorem C3_counterexample :
    calculate_patent_hash (.vdict [("patent_number", .vstr "1US2"),
      ("title", .vstr "t")]) = .md5 "12|t" ∧
    specNormalizeNumber "1US2" = "1US2" ∧
    calculate_patent_hash (.vdict [("patent_number", .vstr "1US2"), ("title", .vstr "t")]) ≠
      .md5 (specNormalizeNumber "1US2" ++ "|" ++ normalizedTitle "t") ∧
    calculate_patent_hash (.vdict [("patent_number", .vstr "A.1"),
      ("title", .vstr "t")]) = .md5 "A.1|t" ∧
    specNormalizeNumber "A.1" = "A1" := by
  exact ⟨rfl, rfl, by decide, rfl, rfl⟩

/-- C4 (amended).  The fingerprint is a pure function of the normalised
patent number and normalised title alone: any two records whose
`patent_number`/`title` fields are strings (or missing, read as `""`) and
whose normalised pairs agree have equal fingerprints, whatever their other
fields are in whatever order.  The claimed *converse* (equal fingerprints
only when the normalised fields agree) is false because the two fields are
joined with the separator `"|"`, which may itself occur in them (see the
counterexample). -/
theorem C4_fingerprint_of_key (a b : Value)
    (hwa : patentWF a = true) (hwb : patentWF b = true)
    (h1 : normalizedNumber (strFieldD a "patent_number") =
      normalizedNumber (strFieldD b "patent_number"))
    (h2 : normalizedTitle (strFieldD a "title") =
      normalizedTitle (strFieldD b "title")) :
    calculate_patent_hash a = calculate_patent_hash b := by
  rw [hash_md5_of_patentWF hwa, hash_md5_of_patentWF hwb, h1, h2]

/-- C4 (witness). -/
theorem C4_witness :
    patentWF recA = true ∧ patentWF recB = true ∧
    calculate_patent_hash recA = calculate_patent_hash recB := by
  refine ⟨by decide, by decide, ?_⟩
  exact C4_fingerprint_of_key recA recB (by decide) (by decide) (by decide) (by decide)

/-- C4 (counterexample).  Two records with *different* normalised patent
numbers and titles hashing to the same fingerprint: the `"|"` join is
ambiguous, so fingerprint equality does not imply field equality. -/
theorem C4_counterexample :
    calculate_patent_hash (.vdict [("patent_number", .vstr "A|"), ("title", .vstr "x")]) =
      calculate_patent_hash (.vdict [("patent_number", .vstr "A"), ("title", .vstr "|x")]) ∧
    normalizedNumber "A|" ≠ normalizedNumber "A" ∧
    normalizedTitle "x" ≠ normalizedTitle "|x" := by
  exact ⟨rfl, by decide, by decide⟩

/-- C10.  Fingerprint computation is total by construction (it returns a
`Digest` for every record); when the normalisation path raises (record not
a dict, or a non-string `patent_number`/`title`), the fallback digests the
whole record, so two fallback-hashed records share a fingerprint exactly
when their entire content is identical. -/
theorem C10_hash_fallback (p q : Value) (e1 e2 : String)
    (hp : hashStringOf p = .error e1) (hq : hashStringOf q = .error e2) :
    calculate_patent_hash p = .pyhash p ∧
    (calculate_patent_hash p = calculate_patent_hash q ↔ p = q) := by
  have h1 : calculate_patent_hash p = .pyhash p := by rw [calculate_patent_hash, hp]
  have h2 : calculate_patent_hash q = .pyhash q := by rw [calculate_patent_hash, hq]
  refine ⟨h1, ?_⟩
  rw [h1, h2]
  constructor
  · intro h
    exact Digest.pyhash.inj h
  · intro h
    rw [h]

/-- C10 (witness). -/
theorem C10_witness :
    hashStringOf (.vdict [("patent_number", .vint 1)]) = .error "AttributeError" ∧
    calculate_patent_hash (.vdict [("patent_number", .vint 1)]) =
      .pyhash (.vdict [("patent_number", .vint 1)]) ∧
    calculate_patent_hash (.vdict [("patent_number", .vint 1)]) ≠
      calculate_patent_hash (.vdict [("patent_number", .vint 2)]) := by
  have h := C10_hash_fallback (.vdict [("patent_number", .vint 1)])
    (.vdict [("patent_number", .vint 2)]) "AttributeError" "AttributeError" rfl rfl
  refine ⟨rfl, h.1, fun hc => ?_⟩
  have := h.2.mp hc
  exact absurd this (by decide)


theorem getD_truthy_some {o : Option Value} (h : pyTruthy (o.getD .vnone) = true) :
    o = some (o.getD .vnone) := by
  cases o with
  | none => simp [pyTruthy] at h
  | some v => rfl

theorem runSteps_cons_ok {s : Value → Except String Value} {v v2 : Value}
    {rest : List (Value → Except String Value)} (h : s v = .ok v2) :
    runSteps v (s :: rest) = runSteps v2 rest := by
  rw [runSteps, h]

theorem fieldOkB_congr {a b : Value} {f : String}
    (h : dictLookup a f = dictLookup b f) : fieldOkB a f = fieldOkB b f := by
  simp [fieldOkB, h]

theorem fillStep_formula (f : String) (kn kvs : List (String × Value)) :
    ∃ v2 : Value, fillStep f (.vdict kn) (.vdict kvs) = .ok v2 ∧ isDictB v2 = true ∧
      (∀ k, k ≠ f → dictLookup v2 k = dictLookup (.vdict kvs) k) ∧
      dictLookup v2 f =
        (if pyTruthy ((dictLookup (.vdict kvs) f).getD .vnone) then
          dictLookup (.vdict kvs) f
         else if pyTruthy ((dictLookup (.vdict kn) f).getD .vnone) then
          dictLookup (.vdict kn) f
         else dictLookup (.vdict kvs) f) := by
  by_cases he : pyTruthy ((kvs.lookup f).getD .vnone) = true
  · -- existing value truthy: no overwrite
    refine ⟨.vdict kvs, fillStep_no (by simp [he]), by simp [isDictB],
      fun k _ => rfl, ?_⟩
    simp [dictLookup, he]
  · by_cases hn2 : pyTruthy ((kn.lookup f).getD .vnone) = true
    · refine ⟨.vdict (updAssoc kvs f ((kn.lookup f).getD .vnone)),
        fillStep_yes (by simpa using he) hn2, by simp [isDictB], ?_, ?_⟩
      · intro k hk
        simp only [dictLookup]
        exact lookup_updAssoc_ne _ _ _ _ hk
      · simp only [dictLookup, lookup_updAssoc_self]
        rw [if_neg (by simpa [dictLookup] using he), if_pos (by simpa [dictLookup] using hn2)]
        exact (getD_truthy_some hn2).symm
    · refine ⟨.vdict kvs, fillStep_no (by simp [hn2]), by simp [isDictB],
        fun k _ => rfl, ?_⟩
      simp only [dictLookup]
      rw [if_neg (by simpa [dictLookup] using he), if_neg (by simpa [dictLookup] using hn2)]


theorem unionStep_spec (f : String) (n : Value) (kvs : List (String × Value))
    (hn : isDictB n = true) (he : fieldOkB (.vdict kvs) f = true)
    (hf : fieldOkB n f = true) :
    unionStep f n (.vdict kvs) = .ok (.vdict (updAssoc kvs f
      (.vlist (dedupFO (fieldElems (.vdict kvs) f ++ fieldElems n f))))) := by
  obtain ⟨kn, rfl⟩ : ∃ k, n = .vdict k := by cases n <;> simp_all [isDictB]
  simp only [fieldOkB, dictLookup] at he hf
  simp only [unionStep, getVal, bind, Except.bind, fieldElems, dictLookup]
  cases hle : kvs.lookup f with
  | none =>
      cases hlf : kn.lookup f with
      | none => simp [pyAdd, pySet, setKey]
      | some nv =>
          rw [hlf] at hf
          cases nv <;> simp_all [pyAdd, pySet, setKey]
  | some ev =>
      rw [hle] at he
      cases ev <;> simp_all [pyAdd, pySet, setKey]
      rename_i xsE
      cases hlf : kn.lookup f with
      | none =>
          simp only [Option.getD_none, Option.getD_some, pyAdd, pySet, setKey,
            List.append_nil]
          rw [if_pos (by simpa [List.all_eq_true] using he)]
      | some nv =>
          rw [hlf] at hf
          cases nv <;> simp_all [pyAdd, pySet, setKey]
          rename_i xsN
          rw [if_pos ?_]
          intro x hx
          rcases List.mem_append.mp hx with h | h
          · exact he x h
          · exact hf x h

theorem runSteps_cons_err {s : Value → Except String Value} {v : Value} {msg : String}
    {rest : List (Value → Except String Value)} (h : s v = .error msg) :
    runSteps v (s :: rest) = v := by
  rw [runSteps, h]

theorem isDict_exists {v : Value} (h : isDictB v = true) : ∃ kvs, v = .vdict kvs := by
  cases v <;> simp_all [isDictB]

/-- C5.  Fill-forward of the scalar fields during merge: for records whose
set-merged fields are well formed (so no earlier merge step raises), the
merged record's `abstract`, `claims` and `description` each equal the
existing record's value whenever that value is truthy, are overwritten by
the incoming record's value exactly when the existing value is
empty/missing and the incoming one is non-empty, and otherwise stay at the
existing (empty) value.  In particular a later non-empty abstract fills an
earlier empty one. -/
theorem C5_fill_forward (ke kn : List (String × Value))
    (hi1 : fieldOkB (.vdict ke) "inventors" = true)
    (hi2 : fieldOkB (.vdict kn) "inventors" = true)
    (ha1 : fieldOkB (.vdict ke) "applicants" = true)
    (ha2 : fieldOkB (.vdict kn) "applicants" = true)
    (hc1 : fieldOkB (.vdict ke) "ipc_classes" = true)
    (hc2 : fieldOkB (.vdict kn) "ipc_classes" = true) :
    ∀ f ∈ (["abstract", "claims", "description"] : List String),
      dictLookup (merge_patent_info (.vdict ke) (.vdict kn)) f =
        if pyTruthy ((dictLookup (.vdict ke) f).getD .vnone) then
          dictLookup (.vdict ke) f
        else if pyTruthy ((dictLookup (.vdict kn) f).getD .vnone) then
          dictLookup (.vdict kn) f
        else dictLookup (.vdict ke) f := by
  have hnd : isDictB (.vdict kn) = true := by simp [isDictB]
  -- step 1: inventors
  have h1 := unionStep_spec "inventors" (.vdict kn) ke hnd hi1 hi2
  obtain ⟨hd1, hl1⟩ := unionStep_preserves h1
  obtain ⟨k1, hk1⟩ := isDict_exists hd1
  rw [hk1] at h1 hl1
  -- step 2: applicants
  have h2 := unionStep_spec "applicants" (.vdict kn) k1 hnd
    (by rw [fieldOkB_congr (hl1 "applicants" (by decide))]; exact ha1) ha2
  obtain ⟨hd2, hl2⟩ := unionStep_preserves h2
  obtain ⟨k2, hk2⟩ := isDict_exists hd2
  rw [hk2] at h2 hl2
  -- step 3: ipc_classes
  have h3 := unionStep_spec "ipc_classes" (.vdict kn) k2 hnd
    (by
      rw [fieldOkB_congr (hl2 "ipc_classes" (by decide)),
        fieldOkB_congr (hl1 "ipc_classes" (by decide))]
      exact hc1) hc2
  obtain ⟨hd3, hl3⟩ := unionStep_preserves h3
  obtain ⟨k3, hk3⟩ := isDict_exists hd3
  rw [hk3] at h3 hl3
  -- scalar lookups of E3 agree with the original record
  have hsc3 : ∀ f, f ∈ (["abstract", "claims", "description"] : List String) →
      dictLookup (.vdict k3) f = dictLookup (.vdict ke) f := by
    intro f hf
    fin_cases hf <;>
      rw [hl3 _ (by decide), hl2 _ (by decide), hl1 _ (by decide)]
  -- step 4: abstract
  obtain ⟨E4, hf4, hd4, hpre4, hval4⟩ :=
    fillStep_formula "abstract" kn k3
  obtain ⟨k4, hk4⟩ := isDict_exists hd4
  rw [hk4] at hf4 hpre4 hval4
  -- step 5: claims
  obtain ⟨E5, hf5, hd5, hpre5, hval5⟩ :=
    fillStep_formula "claims" kn k4
  obtain ⟨k5, hk5⟩ := isDict_exists hd5
  rw [hk5] at hf5 hpre5 hval5
  -- step 6: description
  obtain ⟨E6, hf6, hd6, hpre6, hval6⟩ :=
    fillStep_formula "description" kn k5
  obtain ⟨k6, hk6⟩ := isDict_exists hd6
  rw [hk6] at hf6 hpre6 hval6
  -- final scalar values after the three fills
  have habs : dictLookup (.vdict k6) "abstract" = dictLookup (.vdict k4) "abstract" := by
    rw [hpre6 _ (by decide), hpre5 _ (by decide)]
  have hcla : dictLookup (.vdict k6) "claims" = dictLookup (.vdict k5) "claims" := by
    rw [hpre6 _ (by decide)]
  -- run the step list
  have hrun : merge_patent_info (.vdict ke) (.vdict kn) =
      runSteps (.vdict k6) [unionStep "images" (.vdict kn)] := by
    rw [merge_patent_info, runSteps_cons_ok h1, runSteps_cons_ok h2,
      runSteps_cons_ok h3, runSteps_cons_ok hf4, runSteps_cons_ok hf5,
      runSteps_cons_ok hf6]
  have hfinal : ∀ f, f ∈ (["abstract", "claims", "description"] : List String) →
      dictLookup (merge_patent_info (.vdict ke) (.vdict kn)) f =
        dictLookup (.vdict k6) f := by
    intro f hf
    rw [hrun]
    cases h7 : unionStep "images" (.vdict kn) (.vdict k6) with
    | ok E7 =>
        rw [runSteps_cons_ok h7, runSteps]
        obtain ⟨-, hl7⟩ := unionStep_preserves h7
        fin_cases hf <;> exact hl7 _ (by decide)
    | error msg => rw [runSteps_cons_err h7]
  intro f hf
  rw [hfinal f hf]
  fin_cases hf
  · rw [habs, hval4, hsc3 "abstract" (by decide)]
  · rw [hcla, hval5, hpre4 _ (by decide), hsc3 "claims" (by decide)]
  · rw [hval6, hpre5 _ (by decide), hpre4 _ (by decide), hsc3 "description" (by decide)]


/-- C5 (witness). -/
theorem C5_witness :
    calculate_patent_hash (.vdict [("patent_number", .vstr "US1"), ("title", .vstr "T"),
        ("abstract", .vstr "")]) =
      calculate_patent_hash (.vdict [("patent_number", .vstr "US1"), ("title", .vstr "T"),
        ("abstract", .vstr "A gadget.")]) ∧
    dictLookup (merge_patent_info
      (.vdict [("patent_number", .vstr "US1"), ("title", .vstr "T"), ("abstract", .vstr "")])
      (.vdict [("patent_number", .vstr "US1"), ("title", .vstr "T"),
        ("abstract", .vstr "A gadget.")]))
      "abstract" = some (.vstr "A gadget.") := by
  refine ⟨rfl, ?_⟩
  have h := C5_fill_forward
    [("patent_number", .vstr "US1"), ("title", .vstr "T"), ("abstract", .vstr "")]
    [("patent_number", .vstr "US1"), ("title", .vstr "T"), ("abstract", .vstr "A gadget.")]
    (by decide) (by decide) (by decide) (by decide) (by decide) (by decide)
  rw [h "abstract" (by decide)]
  decide

theorem sourcesOkB_eq (p : Value) : sourcesOkB p = fieldOkB p "source_databases" := rfl

theorem recordWF_tagged {p : Value} (h : recordWF p = true) : taggedB p = true := by
  simp only [recordWF, patentWF, Bool.and_eq_true] at h
  obtain ⟨⟨⟨⟨⟨⟨⟨hd, -⟩, -⟩, hsrc⟩, -⟩, -⟩, -⟩, -⟩ := h
  simp only [taggedB, sourcesOkB_eq, Bool.and_eq_true]
  exact ⟨hd, hsrc⟩

theorem mergeRecord_self_ok {p : Value} (h : recordWF p = true) :
    mergeRecord p p = .ok (selfMergeFn p) := by
  obtain ⟨e2, hm, -, -, -⟩ := mergeRecord_ok (recordWF_tagged h) (recordWF_tagged h)
  rw [hm, selfMergeFn, hm]

theorem hash_selfMerge {p : Value} (h : recordWF p = true) :
    calculate_patent_hash (selfMergeFn p) = calculate_patent_hash p := by
  obtain ⟨e2, hm, -, -, hc⟩ := mergeRecord_ok (recordWF_tagged h) (recordWF_tagged h)
  have hwf : patentWF p = true := by
    simp only [recordWF, Bool.and_eq_true] at h
    exact h.1.1.1.1.1
  rw [selfMergeFn, hm]
  exact (hc hwf).2

theorem mergeIntoFirst_append {A rest : List Value} {h : Digest} {p : Value}
    (hA : ∀ a ∈ A, calculate_patent_hash a ≠ h) :
    mergeIntoFirst (A ++ rest) h p =
      match mergeIntoFirst rest h p with
      | .ok out => .ok (A ++ out)
      | .error e => .error e := by
  induction A with
  | nil =>
      simp only [List.nil_append]
      cases hr : mergeIntoFirst rest h p <;> simp
  | cons a A ih =>
      rw [List.cons_append, mergeIntoFirst, if_neg (hA a (by simp))]
      rw [ih fun a2 ha2 => hA a2 (by simp [ha2])]
      cases hr : mergeIntoFirst rest h p <;> simp [bind, Except.bind]

theorem dedupGo_fresh : ∀ (l1 : List Value) (rest acc : List Value) (seen : List Digest),
    l1.Pairwise (fun a b => calculate_patent_hash a ≠ calculate_patent_hash b) →
    (∀ p ∈ l1, calculate_patent_hash p ∉ seen) →
    dedupGo (l1 ++ rest) acc seen =
      dedupGo rest (acc ++ l1) ((l1.map calculate_patent_hash).reverse ++ seen) := by
  intro l1
  induction l1 with
  | nil => intro rest acc seen _ _; simp
  | cons p l1 ih =>
      intro rest acc seen hpw hfresh
      have hp : calculate_patent_hash p ∉ seen := hfresh p (by simp)
      rw [List.cons_append, dedupGo]
      rw [if_neg hp]
      rw [ih rest (acc ++ [p]) (calculate_patent_hash p :: seen)
        (List.Pairwise.of_cons hpw)
        (by
          intro q hq
          simp only [List.mem_cons, not_or]
          exact ⟨(List.rel_of_pairwise_cons hpw hq).symm ∘ Eq.symm ∘ Eq.symm,
            hfresh q (by simp [hq])⟩)]
      simp [List.append_assoc, List.reverse_cons]

theorem dedupGo_second : ∀ (l2 : List Value) (A : List Value) (seen : List Digest),
    (∀ p ∈ l2, recordWF p = true) →
    (∀ p ∈ l2, calculate_patent_hash p ∈ seen) →
    l2.Pairwise (fun a b => calculate_patent_hash a ≠ calculate_patent_hash b) →
    (∀ a ∈ A, ∀ p ∈ l2, calculate_patent_hash a ≠ calculate_patent_hash p) →
    dedupGo l2 (A ++ l2) seen = .ok (A ++ l2.map selfMergeFn) := by
  intro l2
  induction l2 with
  | nil => intro A seen _ _ _ _; simp [dedupGo]
  | cons p l2 ih =>
      intro A seen hwf hseen hpw hA
      rw [dedupGo]
      rw [if_pos (hseen p (by simp))]
      have hmA : ∀ a ∈ A, calculate_patent_hash a ≠ calculate_patent_hash p := by
        intro a ha
        exact hA a ha p (by simp)
      rw [mergeIntoFirst_append hmA]
      have hhead : mergeIntoFirst (p :: l2) (calculate_patent_hash p) p =
          .ok (selfMergeFn p :: l2) := by
        rw [mergeIntoFirst, if_pos rfl, mergeRecord_self_ok (hwf p (by simp))]
        rfl
      rw [hhead]
      dsimp only [bind, Except.bind]
      have hre : A ++ selfMergeFn p :: l2 = (A ++ [selfMergeFn p]) ++ l2 := by
        simp
      rw [hre, ih (A ++ [selfMergeFn p]) seen
        (fun q hq => hwf q (by simp [hq]))
        (fun q hq => hseen q (by simp [hq]))
        (List.Pairwise.of_cons hpw)
        (by
          intro a ha q hq
          rcases List.mem_append.mp ha with h2 | h2
          · exact hA a h2 q (by simp [hq])
          · rw [List.mem_singleton.mp h2, hash_selfMerge (hwf p (by simp))]
            exact List.rel_of_pairwise_cons hpw hq)]
      simp


theorem fieldElems_congr {a b : Value} {f : String}
    (h : dictLookup a f = dictLookup b f) : fieldElems a f = fieldElems b f := by
  simp [fieldElems, h]

theorem recordEquiv_selfMerge {p : Value} (hwf : recordWF p = true) :
    recordEquiv (selfMergeFn p) p := by
  have hparts := hwf
  simp only [recordWF, patentWF, Bool.and_eq_true] at hparts
  obtain ⟨⟨⟨⟨⟨⟨hd, -⟩, -⟩, hsrc⟩, hinv⟩, happ⟩, hipc⟩ := hparts.1
  have himg := hparts.2
  obtain ⟨kp, rfl⟩ := isDict_exists hd
  have hnd : isDictB (.vdict kp) = true := by simp [isDictB]
  -- the dedup-level source union
  have hms := mergeRecord_spec hsrc (recordWF_tagged hwf)
  set s0 : List Value :=
    fieldElems (.vdict kp) "source_databases" with hs0
  set k0 : List (String × Value) :=
    updAssoc kp "source_databases" (.vlist (dedupFO (s0 ++ s0))) with hk0
  have hself : selfMergeFn (.vdict kp) =
      merge_patent_info (.vdict k0) (.vdict kp) := by
    rw [selfMergeFn, hms]
  -- lookups of k0
  have hl0 : ∀ k, k ≠ "source_databases" →
      dictLookup (.vdict k0) k = dictLookup (.vdict kp) k := by
    intro k hk
    simp only [dictLookup, hk0]
    exact lookup_updAssoc_ne _ _ _ _ hk
  have hl0src : dictLookup (.vdict k0) "source_databases" =
      some (.vlist (dedupFO (s0 ++ s0))) := by
    simp only [dictLookup, hk0]
    exact lookup_updAssoc_self _ _ _
  -- union step 1: inventors
  have h1 := unionStep_spec "inventors" (.vdict kp) k0 hnd
    (by rw [fieldOkB_congr (hl0 "inventors" (by decide))]; exact hinv) hinv
  rw [fieldElems_congr (hl0 "inventors" (by decide))] at h1
  set i1 : List Value := fieldElems (.vdict kp) "inventors" with hi1d
  set k1 : List (String × Value) :=
    updAssoc k0 "inventors" (.vlist (dedupFO (i1 ++ i1))) with hk1
  have hl1 : ∀ k, k ≠ "inventors" →
      dictLookup (.vdict k1) k = dictLookup (.vdict k0) k := by
    intro k hk
    simp only [dictLookup, hk1]
    exact lookup_updAssoc_ne _ _ _ _ hk
  have hl1inv : dictLookup (.vdict k1) "inventors" =
      some (.vlist (dedupFO (i1 ++ i1))) := by
    simp only [dictLookup, hk1]
    exact lookup_updAssoc_self _ _ _
  -- union step 2: applicants
  have h2 := unionStep_spec "applicants" (.vdict kp) k1 hnd
    (by
      rw [fieldOkB_congr (hl1 "applicants" (by decide)),
        fieldOkB_congr (hl0 "applicants" (by decide))]
      exact happ) happ
  have happchain : dictLookup (.vdict k1) "applicants" =
      dictLookup (.vdict kp) "applicants" := by
    rw [hl1 _ (by decide), hl0 _ (by decide)]
  rw [fieldElems_congr happchain] at h2
  set a2 : List Value := fieldElems (.vdict kp) "applicants" with ha2d
  set k2 : List (String × Value) :=
    updAssoc k1 "applicants" (.vlist (dedupFO (a2 ++ a2))) with hk2
  have hl2 : ∀ k, k ≠ "applicants" →
      dictLookup (.vdict k2) k = dictLookup (.vdict k1) k := by
    intro k hk
    simp only [dictLookup, hk2]
    exact lookup_updAssoc_ne _ _ _ _ hk
  have hl2app : dictLookup (.vdict k2) "applicants" =
      some (.vlist (dedupFO (a2 ++ a2))) := by
    simp only [dictLookup, hk2]
    exact lookup_updAssoc_self _ _ _
  -- union step 3: ipc_classes
  have h3 := unionStep_spec "ipc_classes" (.vdict kp) k2 hnd
    (by
      rw [fieldOkB_congr (hl2 "ipc_classes" (by decide)),
        fieldOkB_congr (hl1 "ipc_classes" (by decide)),
        fieldOkB_congr (hl0 "ipc_classes" (by decide))]
      exact hipc) hipc
  have hipcchain : dictLookup (.vdict k2) "ipc_classes" =
      dictLookup (.vdict kp) "ipc_classes" := by
    rw [hl2 _ (by decide), hl1 _ (by decide), hl0 _ (by decide)]
  rw [fieldElems_congr hipcchain] at h3
  set c3 : List Value := fieldElems (.vdict kp) "ipc_classes" with hc3d
  set k3 : List (String × Value) :=
    updAssoc k2 "ipc_classes" (.vlist (dedupFO (c3 ++ c3))) with hk3
  have hl3 : ∀ k, k ≠ "ipc_classes" →
      dictLookup (.vdict k3) k = dictLookup (.vdict k2) k := by
    intro k hk
    simp only [dictLookup, hk3]
    exact lookup_updAssoc_ne _ _ _ _ hk
  have hl3ipc : dictLookup (.vdict k3) "ipc_classes" =
      some (.vlist (dedupFO (c3 ++ c3))) := by
    simp only [dictLookup, hk3]
    exact lookup_updAssoc_self _ _ _
  -- scalar fills: values never change because both sides carry p's value
  obtain ⟨E4, hf4, hd4, hpre4, hval4⟩ :=
    fillStep_formula "abstract" kp k3
  obtain ⟨k4, hk4⟩ := isDict_exists hd4
  rw [hk4] at hf4 hpre4 hval4
  have habs3 : dictLookup (.vdict k3) "abstract" = dictLookup (.vdict kp) "abstract" := by
    rw [hl3 _ (by decide), hl2 _ (by decide), hl1 _ (by decide), hl0 _ (by decide)]
  have hval4e : dictLookup (.vdict k4) "abstract" = dictLookup (.vdict kp) "abstract" := by
    rw [hval4, habs3]
    by_cases hta : pyTruthy ((dictLookup (.vdict kp) "abstract").getD .vnone) = true
    · rw [if_pos hta]
    · rw [if_neg hta, if_neg hta]
  obtain ⟨E5, hf5, hd5, hpre5, hval5⟩ :=
    fillStep_formula "claims" kp k4
  obtain ⟨k5, hk5⟩ := isDict_exists hd5
  rw [hk5] at hf5 hpre5 hval5
  have hcla4 : dictLookup (.vdict k4) "claims" = dictLookup (.vdict kp) "claims" := by
    rw [hpre4 _ (by decide), hl3 _ (by decide), hl2 _ (by decide), hl1 _ (by decide),
      hl0 _ (by decide)]
  have hval5e : dictLookup (.vdict k5) "claims" = dictLookup (.vdict kp) "claims" := by
    rw [hval5, hcla4]
    by_cases hta : pyTruthy ((dictLookup (.vdict kp) "claims").getD .vnone) = true
    · rw [if_pos hta]
    · rw [if_neg hta, if_neg hta]
  obtain ⟨E6, hf6, hd6, hpre6, hval6⟩ :=
    fillStep_formula "description" kp k5
  obtain ⟨k6, hk6⟩ := isDict_exists hd6
  rw [hk6] at hf6 hpre6 hval6
  have hdes5 : dictLookup (.vdict k5) "description" =
      dictLookup (.vdict kp) "description" := by
    rw [hpre5 _ (by decide), hpre4 _ (by decide), hl3 _ (by decide), hl2 _ (by decide),
      hl1 _ (by decide), hl0 _ (by decide)]
  have hval6e : dictLookup (.vdict k6) "description" =
      dictLookup (.vdict kp) "description" := by
    rw [hval6, hdes5]
    by_cases hta : pyTruthy ((dictLookup (.vdict kp) "description").getD .vnone) = true
    · rw [if_pos hta]
    · rw [if_neg hta, if_neg hta]
  -- union step 7: images
  have h7 := unionStep_spec "images" (.vdict kp) k6 hnd
    (by
      rw [fieldOkB_congr (hpre6 "images" (by decide)),
        fieldOkB_congr (hpre5 "images" (by decide)),
        fieldOkB_congr (hpre4 "images" (by decide)),
        fieldOkB_congr (hl3 "images" (by decide)),
        fieldOkB_congr (hl2 "images" (by decide)),
        fieldOkB_congr (hl1 "images" (by decide)),
        fieldOkB_congr (hl0 "images" (by decide))]
      exact himg) himg
  have himgchain : dictLookup (.vdict k6) "images" =
      dictLookup (.vdict kp) "images" := by
    rw [hpre6 _ (by decide), hpre5 _ (by decide), hpre4 _ (by decide),
      hl3 _ (by decide), hl2 _ (by decide), hl1 _ (by decide), hl0 _ (by decide)]
  rw [fieldElems_congr himgchain] at h7
  set m7 : List Value := fieldElems (.vdict kp) "images" with hm7d
  set k7 : List (String × Value) :=
    updAssoc k6 "images" (.vlist (dedupFO (m7 ++ m7))) with hk7
  have hl7 : ∀ k, k ≠ "images" →
      dictLookup (.vdict k7) k = dictLookup (.vdict k6) k := by
    intro k hk
    simp only [dictLookup, hk7]
    exact lookup_updAssoc_ne _ _ _ _ hk
  have hl7img : dictLookup (.vdict k7) "images" =
      some (.vlist (dedupFO (m7 ++ m7))) := by
    simp only [dictLookup, hk7]
    exact lookup_updAssoc_self _ _ _
  -- evaluate the full step list
  have hfinal : selfMergeFn (.vdict kp) = .vdict k7 := by
    rw [hself, merge_patent_info, runSteps_cons_ok h1, runSteps_cons_ok h2,
      runSteps_cons_ok h3, runSteps_cons_ok hf4, runSteps_cons_ok hf5,
      runSteps_cons_ok hf6, runSteps_cons_ok h7, runSteps]
  rw [hfinal]
  -- chains for the final lookups of the merged fields
  have hfsrc : dictLookup (.vdict k7) "source_databases" =
      some (.vlist (dedupFO (s0 ++ s0))) := by
    rw [hl7 _ (by decide), hpre6 _ (by decide), hpre5 _ (by decide),
      hpre4 _ (by decide), hl3 _ (by decide), hl2 _ (by decide), hl1 _ (by decide),
      hl0src]
  have hfinv : dictLookup (.vdict k7) "inventors" =
      some (.vlist (dedupFO (i1 ++ i1))) := by
    rw [hl7 _ (by decide), hpre6 _ (by decide), hpre5 _ (by decide),
      hpre4 _ (by decide), hl3 _ (by decide), hl2 _ (by decide), hl1inv]
  have hfapp : dictLookup (.vdict k7) "applicants" =
      some (.vlist (dedupFO (a2 ++ a2))) := by
    rw [hl7 _ (by decide), hpre6 _ (by decide), hpre5 _ (by decide),
      hpre4 _ (by decide), hl3 _ (by decide), hl2app]
  have hfipc : dictLookup (.vdict k7) "ipc_classes" =
      some (.vlist (dedupFO (c3 ++ c3))) := by
    rw [hl7 _ (by decide), hpre6 _ (by decide), hpre5 _ (by decide),
      hpre4 _ (by decide), hl3ipc]
  constructor
  · -- list fields agree as sets
    intro f hf v
    fin_cases hf
    · rw [show fieldElems (.vdict k7) "source_databases" = dedupFO (s0 ++ s0) by
        simp [fieldElems, hfsrc]]
      rw [mem_dedupFO]
      simp [hs0, List.mem_append]
    · rw [show fieldElems (.vdict k7) "inventors" = dedupFO (i1 ++ i1) by
        simp [fieldElems, hfinv]]
      rw [mem_dedupFO]
      simp [hi1d, List.mem_append]
    · rw [show fieldElems (.vdict k7) "applicants" = dedupFO (a2 ++ a2) by
        simp [fieldElems, hfapp]]
      rw [mem_dedupFO]
      simp [ha2d, List.mem_append]
    · rw [show fieldElems (.vdict k7) "ipc_classes" = dedupFO (c3 ++ c3) by
        simp [fieldElems, hfipc]]
      rw [mem_dedupFO]
      simp [hc3d, List.mem_append]
    · rw [show fieldElems (.vdict k7) "images" = dedupFO (m7 ++ m7) by
        simp [fieldElems, hl7img]]
      rw [mem_dedupFO]
      simp [hm7d, List.mem_append]
  · -- all other fields are unchanged
    intro k hk
    have hne : k ≠ "source_databases" ∧ k ≠ "inventors" ∧ k ≠ "applicants" ∧
        k ≠ "ipc_classes" ∧ k ≠ "images" := by
      simp only [listFields, List.mem_cons, List.not_mem_nil, or_false, not_or] at hk
      exact ⟨hk.1, hk.2.1, hk.2.2.1, hk.2.2.2.1, hk.2.2.2.2⟩
    obtain ⟨hns, hni, hna, hnc, hnm⟩ := hne
    by_cases hab : k = "abstract"
    · subst hab
      rw [hl7 _ (by decide), hpre6 _ (by decide), hpre5 _ (by decide), hval4e]
    by_cases hcl : k = "claims"
    · subst hcl
      rw [hl7 _ (by decide), hpre6 _ (by decide), hval5e]
    by_cases hde : k = "description"
    · subst hde
      rw [hl7 _ (by decide), hval6e]
    rw [hl7 _ hnm, hpre6 _ hde, hpre5 _ hcl, hpre4 _ hab, hl3 _ hnc, hl2 _ hna,
      hl1 _ hni, hl0 _ hns]


/-- C9.  Idempotence of the dedup pass: deduplicating the concatenation of
an already-deduplicated list (pairwise distinct fingerprints, well-formed
records) with itself returns one record per original record, and each
output record is equivalent to its original: the set-merged list fields
(`source_databases`, `inventors`, `applicants`, `ipc_classes`, `images`)
hold the same elements as sets, and every other field is unchanged — no
growth and no field loss. -/
theorem C9_dedup_idempotent (l : List Value)
    (hwf : ∀ p ∈ l, recordWF p = true)
    (hpw : l.Pairwise fun a b => calculate_patent_hash a ≠ calculate_patent_hash b) :
    (deduplicate_patents (l ++ l)).length = l.length ∧
    ∀ (i : Nat) (hi : i < l.length) (ho : i < (deduplicate_patents (l ++ l)).length),
      recordEquiv ((deduplicate_patents (l ++ l)).get ⟨i, ho⟩) (l.get ⟨i, hi⟩) := by
  by_cases hnil : l = []
  · subst hnil
    refine ⟨by simp [deduplicate_patents], ?_⟩
    intro i hi
    simp at hi
  · have hgo : dedupGo (l ++ l) [] [] = .ok (l.map selfMergeFn) := by
      rw [dedupGo_fresh l l [] [] hpw (by simp)]
      have h2 := dedupGo_second l [] ((l.map calculate_patent_hash).reverse ++ []) hwf
        (by
          intro p hp
          simp only [List.append_nil, List.mem_reverse, List.mem_map]
          exact ⟨p, hp, rfl⟩)
        hpw (by simp)
      simpa using h2
    have hdd : deduplicate_patents (l ++ l) = l.map selfMergeFn := by
      simp only [deduplicate_patents]
      rw [if_neg (by simp [hnil]), hgo]
    rw [hdd]
    refine ⟨by simp, ?_⟩
    intro i hi ho
    have hg : (l.map selfMergeFn).get ⟨i, ho⟩ = selfMergeFn (l.get ⟨i, hi⟩) := by
      simp [List.get_eq_getElem, List.getElem_map]
    rw [hg]
    exact recordEquiv_selfMerge (hwf _ (l.get_mem _ _))


end MultiDB
namespace MultiDB

/-- C9 (witness). -/
theorem C9_witness :
    (deduplicate_patents (lw ++ lw)).length = lw.length ∧
    recordEquiv ((deduplicate_patents (lw ++ lw)).get ⟨0, by decide⟩)
      (lw.get ⟨0, by decide⟩) := by
  have h := C9_dedup_idempotent lw (by decide) (by decide)
  exact ⟨h.1, h.2 0 (by decide) (by decide)⟩

end MultiDB
